import Mathlib

/-!
Imhotep native FTGS: varint codec, term decoders, merge iterator, executor.

A shallow embedding of the C++ sources under
`imhotep-server/src/main/native/optimized_ftgs/optimized`:

* `include/test_utils.h`      : `varint_encode`, `VarIntView`
* `include/term_iterator.hpp` : `term_iterator<IntTerm>`, `term_iterator<StringTerm>`
* `include/merge_iterator.hpp`: `MergeIterator`
* `src/executor_service.cpp`  : `ExecutorService`

Conventions.  A byte is a natural number below 256.  A machine integer of
width `w` is an `Int` in the two's-complement range, obtained from a bit
pattern with `toSigned`.  A pointer is a natural number (an address), the null
pointer is `0`.  Code that can fail returns `Except Failure`.
-/

namespace Imhotep

/-! ## Machine integers and bytes -/

/-- The ways in which the embedded code can fail. -/
inductive Failure where
  /-- The check `assert(!empty())` of `VarIntView::read` failed: the view ended. -/
  | assert_not_empty
  /-- An exception `std::out_of_range`, thrown by `std::string::erase`. -/
  | out_of_range
deriving DecidableEq, Repr

/-- Conversion of an integer value to an 8-bit buffer element (`char`, `uint8_t`). -/
def toByte (v : Int) : Nat := (v % 256).toNat

/-- The signed value of a bit pattern `p` of width `w` (two's complement). -/
def toSigned (w : Nat) (p : Nat) : Int :=
  if p % 2 ^ w < 2 ^ (w - 1) then ((p % 2 ^ w : Nat) : Int) else ((p % 2 ^ w : Nat) : Int) - 2 ^ w

/-- Conversion of a value to `int`, the default `int_t` of `varint_encode`
    (32 bits): `int_t value(*current)`. -/
def int_cast (x : Int) : Int := toSigned 32 (x % 2 ^ 32).toNat

/-! ## `varint_encode` (test_utils.h, lines 61-104) -/

/-- The bytes that one turn of the loop of `varint_encode` appends for `value`
    (lines 70-101).  `&`, `|` and `>>` on `int` are `Int.land`, `Int.lor` and
    the arithmetic shift `Int.shiftRight`; every assignment `*result++ = e`
    converts `e` to a byte. -/
def varint_encode_value (value : Int) : List Nat :=
  if value < 0 then
    [ toByte (Int.lor (Int.land value 0x7F) 0x80),
      toByte (Int.lor (Int.land (Int.shiftRight value 7) 0x7F) 0x80),
      toByte (Int.lor (Int.land (Int.shiftRight value 14) 0x7F) 0x80),
      toByte (Int.lor (Int.land (Int.shiftRight value 21) 0x7F) 0x80),
      toByte (Int.lor (Int.land (Int.shiftRight value 28) 0x7F) 0x80) ]
  else if value < 2 ^ 7 then
    [ toByte value ]
  else if value < 2 ^ 14 then
    [ toByte (Int.lor (Int.land value 0x7F) 0x80),
      toByte (Int.shiftRight value 7) ]
  else if value < 2 ^ 21 then
    [ toByte (Int.lor (Int.land value 0x7F) 0x80),
      toByte (Int.lor (Int.land (Int.shiftRight value 7) 0x7F) 0x80),
      toByte (Int.shiftRight value 14) ]
  else if value < 2 ^ 28 then
    [ toByte (Int.lor (Int.land value 0x7F) 0x80),
      toByte (Int.lor (Int.land (Int.shiftRight value 7) 0x7F) 0x80),
      toByte (Int.lor (Int.land (Int.shiftRight value 14) 0x7F) 0x80),
      toByte (Int.shiftRight value 21) ]
  else
    [ toByte (Int.lor (Int.land value 0x7F) 0x80),
      toByte (Int.lor (Int.land (Int.shiftRight value 7) 0x7F) 0x80),
      toByte (Int.lor (Int.land (Int.shiftRight value 14) 0x7F) 0x80),
      toByte (Int.lor (Int.land (Int.shiftRight value 21) 0x7F) 0x80),
      toByte (Int.shiftRight value 28) ]

/-- The function `varint_encode<int>(begin, end, out)`: every element of the
    range is converted to `int` and its bytes are appended to `out`. -/
def varint_encode : List Int → List Nat → List Nat
  | [], out => out
  | x :: rest, out => varint_encode rest (out ++ varint_encode_value (int_cast x))

/-! ## `VarIntView` (test_utils.h, lines 120-154) -/

/-- A view `[_begin, _end)` of a byte region.  `_begin` is the address of the
    cursor and `bytes` holds the contents of the addresses `_begin`, ...,
    `_end - 1`, so that `_end = _begin + bytes.length`.  The default-constructed
    view has both pointers null. -/
structure VarIntView where
  _begin : Nat := 0
  bytes : List Nat := []
deriving DecidableEq, Repr

namespace VarIntView

/-- The pointer `_end` of the view. -/
def _end (v : VarIntView) : Nat := v._begin + v.bytes.length

/-- The test `empty()`, that is `_begin >= _end`. -/
def empty (v : VarIntView) : Bool := decide (v._begin ≥ v._end)

/-- The method `read()`: the byte under the cursor as `uint8_t`, and the view
    with the cursor advanced.  On an empty view the check `assert(!empty())`
    fails. -/
def read (v : VarIntView) : Except Failure (Nat × VarIntView) :=
  match v.bytes with
  | [] => .error .assert_not_empty
  | b :: rest => .ok (b % 256, { _begin := v._begin + 1, bytes := rest })

/-- The loop of `read_varint<int_t>` for an `int_t` of `w` bits, started with
    `result`, `shift` and the byte `b`, over a view with cursor `_begin` and
    remaining bytes `bytes`.  `(b & 0x7FL) << shift` is a `long` (64 bits) and
    `result |= ...` keeps the low `w` bits.  The call `b = read()` is the match
    on the remaining bytes. -/
def read_varint_loop (w : Nat) :
    List Nat → Nat → Nat → Nat → Nat → Except Failure (Int × VarIntView)
  | bytes, _begin, result, shift, b =>
    let result := (result ||| (((b &&& 0x7F) <<< shift) % 2 ^ 64)) % 2 ^ w
    if b < 0x80 then .ok (toSigned w result, { _begin := _begin, bytes := bytes })
    else
      match bytes with
      | [] => .error .assert_not_empty
      | c :: rest => read_varint_loop w rest (_begin + 1) result (shift + 7) (c % 256)

/-- The method `read_varint<int_t>(b)` for an `int_t` of `w` bits. -/
def read_varint (w : Nat) (v : VarIntView) (b : Nat) : Except Failure (Int × VarIntView) :=
  read_varint_loop w v.bytes v._begin 0 0 b

/-- The idiom `read_varint<int_t>(read())` of the decoders. -/
def read_varint_read (w : Nat) (v : VarIntView) : Except Failure (Int × VarIntView) :=
  match v.read with
  | .error e => .error e
  | .ok (b, v1) => v1.read_varint w b

/-- Decoding a view value by value: while the view is not empty, one value is
    read with `read_varint<int_t>(read())`.  `none` when `fuel` turns of the
    loop did not empty the view. -/
def decode_all (w : Nat) : Nat → VarIntView → Option (Except Failure (List Int × VarIntView))
  | 0, v => if v.empty then some (.ok ([], v)) else none
  | fuel + 1, v =>
    if v.empty then some (.ok ([], v))
    else
      match v.read_varint_read w with
      | .error e => some (.error e)
      | .ok (x, v1) =>
        match decode_all w fuel v1 with
        | none => none
        | some (.error e) => some (.error e)
        | some (.ok (xs, v2)) => some (.ok (x :: xs, v2))

end VarIntView

/-! ## Terminated varints -/

/-- A terminated varint: a non-empty run of bytes of which every one but the
    last has the bit `0x80` set, and the last has it clear. -/
def is_varint : List Nat → Bool
  | [] => false
  | [b] => decide (b < 0x80)
  | b :: c :: bs => decide (0x80 ≤ b) && decide (b < 0x100) && is_varint (c :: bs)

/-- The number a run of bytes denotes: 7 payload bits a byte, least
    significant group first. -/
def varint_value : List Nat → Nat
  | [] => 0
  | b :: bs => b % 0x80 + 0x80 * varint_value bs

/-! ## Terms -/

/-- Modelled from the spec: the term type of `term.hpp`, which is not among
    the sources.  A term is a triple of an id (a 64-bit signed integer for a
    numeric term, a byte sequence for a textual term), a 64-bit unsigned
    offset into the docid file and a 64-bit unsigned document frequency. -/
structure Term (id_t : Type) where
  id : id_t
  doc_offset : Nat
  doc_freq : Nat
deriving DecidableEq, Repr

/-- A numeric term. -/
abbrev IntTerm := Term Int

/-- A textual term, its id a sequence of bytes. -/
abbrev StringTerm := Term (List Nat)

/-- Conversion of an integer value to a 64-bit unsigned field. -/
def toUInt64 (v : Int) : Nat := (v % 2 ^ 64).toNat

/-- Modelled from the spec: the constructor `IntTerm(id, doc_offset, doc_freq)`
    of `term.hpp`, which stores its arguments in the 64-bit fields of the term. -/
def IntTerm.make (id doc_offset doc_freq : Int) : IntTerm :=
  { id := toSigned 64 (toUInt64 id), doc_offset := toUInt64 doc_offset,
    doc_freq := toUInt64 doc_freq }

/-- Modelled from the spec: the constructor `StringTerm(id, doc_offset, doc_freq)`
    of `term.hpp`. -/
def StringTerm.make (id : List Nat) (doc_offset doc_freq : Int) : StringTerm :=
  { id := id, doc_offset := toUInt64 doc_offset, doc_freq := toUInt64 doc_freq }

/-- Modelled from the spec: the default-constructed term of `term.hpp`, with
    the default id (0 for a numeric term, empty for a textual one) and
    doc-offset 0. -/
instance {id_t : Type} [Inhabited id_t] : Inhabited (Term id_t) :=
  ⟨{ id := default, doc_offset := 0, doc_freq := 0 }⟩

/-- Modelled from the spec: `operator<` of the terms of `term.hpp`, the
    ordering by id (numeric ascending, textual lexicographic over the bytes). -/
def Term.lt {id_t : Type} [LinearOrder id_t] (a b : Term id_t) : Bool := decide (a.id < b.id)

/-- Modelled from the spec: `operator==` of `VarIntView`, declared in
    `var_int_view.hpp`, which is not among the sources.  Two views are equal
    iff their cursors and their ends are the same addresses. -/
def VarIntView.eq (v other : VarIntView) : Bool :=
  v._begin == other._begin && v._end == other._end

/-! ## `term_iterator` (term_iterator.hpp) -/

/-- The class `term_iterator<term_t>`.  `buffer_t` is
    `term_iterator_traits<term_t>::buffer_t`: the empty struct `Unused` for a
    numeric term, `std::string` for a textual one.  The view is held by one
    iterator only. -/
structure term_iterator (id_t buffer_t : Type) where
  _view : VarIntView
  _current : Term id_t
  _id_buffer : buffer_t

/-- The type `int_term_iterator`, that is `term_iterator<IntTerm>`. -/
abbrev int_term_iterator := term_iterator Int Unit

/-- The type `string_term_iterator`, that is `term_iterator<StringTerm>`. -/
abbrev string_term_iterator := term_iterator (List Nat) (List Nat)

namespace term_iterator

/-- The default constructor `term_iterator()`: a null view and a default term. -/
def sentinel (id_t buffer_t : Type) [Inhabited (Term id_t)] [Inhabited buffer_t] :
    term_iterator id_t buffer_t :=
  { _view := {}, _current := default, _id_buffer := default }

/-- The method `equal`: `*_view == *other._view`. -/
def equal {id_t buffer_t : Type} (it other : term_iterator id_t buffer_t) : Bool :=
  it._view.eq other._view

/-- The method `dereference`. -/
def dereference {id_t buffer_t : Type} (it : term_iterator id_t buffer_t) : Term id_t :=
  it._current

/-- The loop `for (; it != end; ++it) out.push_back(*it)` against the
    default-constructed iterator `end`, for an iterator whose `operator++` is
    `incr`.  `none` when `fuel` turns did not reach `end`. -/
def collect {id_t buffer_t : Type} [Inhabited (Term id_t)] [Inhabited buffer_t]
    (incr : term_iterator id_t buffer_t → Except Failure (term_iterator id_t buffer_t)) :
    Nat → term_iterator id_t buffer_t → Option (Except Failure (List (Term id_t)))
  | 0, it => if it.equal (sentinel id_t buffer_t) then some (.ok []) else none
  | fuel + 1, it =>
    if it.equal (sentinel id_t buffer_t) then some (.ok [])
    else
      match incr it with
      | .error e => some (.error e)
      | .ok it1 =>
        match collect incr fuel it1 with
        | none => none
        | some (.error e) => some (.error e)
        | some (.ok ts) => some (.ok (it.dereference :: ts))

end term_iterator

/-- The specialisation `term_iterator<IntTerm>::increment` (lines 63-76).  The
    view of a default-constructed `MMappedVarIntView` is the null view. -/
def int_term_iterator.increment (it : int_term_iterator) : Except Failure int_term_iterator :=
  if !it._view.empty then
    match it._view.read_varint_read 64 with
    | .error e => .error e
    | .ok (id_delta, v1) =>
      match v1.read_varint_read 64 with
      | .error e => .error e
      | .ok (offset_delta, v2) =>
        match v2.read_varint_read 64 with
        | .error e => .error e
        | .ok (doc_freq, v3) =>
          .ok { it with
                _view := v3,
                _current := IntTerm.make (it._current.id + id_delta)
                  ((it._current.doc_offset : Int) + offset_delta) doc_freq }
  else
    .ok { it with _view := {} }

/-- The constructor `term_iterator<IntTerm>(begin, end)` over the bytes of
    `[begin, end)`: a view of the range, then `increment()`. -/
def int_term_iterator.construct (_begin : Nat) (bytes : List Nat) :
    Except Failure int_term_iterator :=
  int_term_iterator.increment
    { _view := { _begin := _begin, bytes := bytes }, _current := default, _id_buffer := () }

/-- The terms an `int_term_iterator` over `[begin, end)` yields up to the
    default-constructed sentinel. -/
def int_term_iterator.terms (fuel _begin : Nat) (bytes : List Nat) :
    Option (Except Failure (List IntTerm)) :=
  match int_term_iterator.construct _begin bytes with
  | .error e => some (.error e)
  | .ok it => term_iterator.collect int_term_iterator.increment fuel it

/-- The call `s.erase(pos, len)` of `std::string`: `std::out_of_range` when
    `pos > s.size()`, else the characters `[pos, pos + min(len, size - pos))`
    are removed. -/
def string_erase (s : List Nat) (pos len : Nat) : Except Failure (List Nat) :=
  if pos > s.length then .error .out_of_range
  else .ok (s.take pos ++ s.drop (pos + min len (s.length - pos)))

/-- The loop `for (count = 0; count < n; ++count) _id_buffer.push_back(_view->read())`. -/
def push_back_read : Nat → VarIntView → List Nat → Except Failure (List Nat × VarIntView)
  | 0, v, buffer => .ok (buffer, v)
  | n + 1, v, buffer =>
    match v.read with
    | .error e => .error e
    | .ok (b, v1) => push_back_read n v1 (buffer ++ [b])

/-- The specialisation `term_iterator<StringTerm>::increment` (lines 78-97).
    The arguments of `erase` are of type `size_t`: `_id_buffer.size() - erase`
    and `erase` are taken modulo 2^64. -/
def string_term_iterator.increment (it : string_term_iterator) :
    Except Failure string_term_iterator :=
  if !it._view.empty then
    match it._view.read_varint_read 64 with
    | .error e => .error e
    | .ok (erase, v1) =>
      match v1.read_varint_read 64 with
      | .error e => .error e
      | .ok (append, v2) =>
        match string_erase it._id_buffer (toUInt64 ((it._id_buffer.length : Int) - erase))
            (toUInt64 erase) with
        | .error e => .error e
        | .ok erased =>
          match push_back_read (toUInt64 append) v2 erased with
          | .error e => .error e
          | .ok (id_buffer, v3) =>
            match v3.read_varint_read 64 with
            | .error e => .error e
            | .ok (offset_delta, v4) =>
              match v4.read_varint_read 64 with
              | .error e => .error e
              | .ok (doc_freq, v5) =>
                .ok { _view := v5,
                      _id_buffer := id_buffer,
                      _current := StringTerm.make id_buffer
                        ((it._current.doc_offset : Int) + offset_delta) doc_freq }
  else
    .ok { it with _view := {} }

/-- The constructor `term_iterator<StringTerm>(begin, end)` over the bytes of
    `[begin, end)`: a view of the range, then `increment()`. -/
def string_term_iterator.construct (_begin : Nat) (bytes : List Nat) :
    Except Failure string_term_iterator :=
  string_term_iterator.increment
    { _view := { _begin := _begin, bytes := bytes }, _current := default, _id_buffer := [] }

/-- The terms a `string_term_iterator` over `[begin, end)` yields up to the
    default-constructed sentinel. -/
def string_term_iterator.terms (fuel _begin : Nat) (bytes : List Nat) :
    Option (Except Failure (List StringTerm)) :=
  match string_term_iterator.construct _begin bytes with
  | .error e => some (.error e)
  | .ok it => term_iterator.collect string_term_iterator.increment fuel it

/-! ## Term records, as the format describes them -/

/-- A numeric record: three varints, each given by its bytes. -/
structure IntRecord where
  id_delta : List Nat
  offset_delta : List Nat
  doc_freq : List Nat
deriving DecidableEq, Repr

/-- A varint of a term file: terminated, and of at most nine bytes, so that
    its 63 payload bits fit a `long`. -/
def is_long_varint (bs : List Nat) : Bool := is_varint bs && decide (bs.length ≤ 9)

/-- A complete numeric record. -/
def IntRecord.complete (r : IntRecord) : Bool :=
  is_long_varint r.id_delta && is_long_varint r.offset_delta && is_long_varint r.doc_freq

/-- The bytes of a numeric record. -/
def IntRecord.bytes (r : IntRecord) : List Nat := r.id_delta ++ r.offset_delta ++ r.doc_freq

/-- A textual record: the varints are given by their bytes, `raw` are the
    appended bytes. -/
structure StringRecord where
  erase : List Nat
  append : List Nat
  raw : List Nat
  offset_delta : List Nat
  doc_freq : List Nat
deriving DecidableEq, Repr

/-- A complete textual record: four varints, and as many raw bytes as the
    append count says. -/
def StringRecord.complete (r : StringRecord) : Bool :=
  is_long_varint r.erase && is_long_varint r.append && is_long_varint r.offset_delta
    && is_long_varint r.doc_freq && decide (r.raw.length = varint_value r.append)
    && r.raw.all (fun b => decide (b < 256))

/-- The bytes of a textual record. -/
def StringRecord.bytes (r : StringRecord) : List Nat :=
  r.erase ++ r.append ++ r.raw ++ r.offset_delta ++ r.doc_freq

/-- The id a textual record makes of the previous id: its last `erase` bytes
    removed, the raw bytes appended. -/
def StringRecord.apply (r : StringRecord) (id : List Nat) : List Nat :=
  id.take (id.length - varint_value r.erase) ++ r.raw

/-- Modelled from the spec: the split reader `SplitIterator<term_t>` of
    `split_iterator.hpp`, which is not among the sources.  It is a lazy,
    forward-only sequence of terms with the contract of the term decoder:
    `terms` are the terms not yet passed, the current one first, and the
    iterator equals the default-constructed sentinel iff none is left. -/
structure SplitIterator (id_t : Type) where
  terms : List (Term id_t)
deriving DecidableEq, Repr

namespace SplitIterator

/-- Modelled from the spec: comparison with the default-constructed
    `SplitIterator`, the end sentinel. -/
def at_end {id_t : Type} (s : SplitIterator id_t) : Bool := s.terms.isEmpty

/-- Modelled from the spec: `*it`, the current term. -/
def dereference {id_t : Type} [Inhabited id_t] (s : SplitIterator id_t) : Term id_t :=
  s.terms.headD default

/-- Modelled from the spec: `++it`. -/
def increment {id_t : Type} (s : SplitIterator id_t) : SplitIterator id_t :=
  { terms := s.terms.tail }

end SplitIterator

/-- The type `MergeIterator::Entry`: a split iterator and the packed-table
    handle of its shard.  `H` is the type `Shard::packed_table_ptr`. -/
abbrev Entry (id_t H : Type) := SplitIterator id_t × H

/-- The class `MergeIterator<term_t>`. -/
structure MergeIterator (id_t H : Type) where
  _its : List (Entry id_t H)
  _current : Term id_t × H

namespace MergeIterator

/-- The default constructor `MergeIterator()`. -/
def sentinel (id_t H : Type) [Inhabited id_t] [Inhabited H] : MergeIterator id_t H :=
  { _its := [], _current := default }

/-- The loop of `increment` that looks for the lowest entry (lines 52-58):
    `it` is the position of the loop, `lowest` the position and the entry of
    the lowest entry so far. -/
def lowest_loop {id_t H : Type} [LinearOrder id_t] [Inhabited id_t] :
    List (Entry id_t H) → Nat → Nat × Entry id_t H → Nat × Entry id_t H
  | [], _, lowest => lowest
  | entry :: rest, it, lowest =>
    if Term.lt entry.1.dereference lowest.2.1.dereference then
      lowest_loop rest (it + 1) (it, entry)
    else
      lowest_loop rest (it + 1) lowest

/-- The method `increment` (lines 47-64). -/
def increment {id_t H : Type} [LinearOrder id_t] [Inhabited id_t] (m : MergeIterator id_t H) :
    MergeIterator id_t H :=
  match m._its with
  | [] => m
  | first :: _ =>
    let lowest := lowest_loop m._its 0 (0, first)
    let entry := lowest.2
    let advanced : Entry id_t H := (entry.1.increment, entry.2)
    { _current := (entry.1.dereference, entry.2),
      _its := if advanced.1.at_end then m._its.eraseIdx lowest.1
              else m._its.set lowest.1 advanced }

/-- The constructor `MergeIterator(begin, end)` (lines 25-33): the entries that
    are not at their end are copied, then `increment()`. -/
def construct {id_t H : Type} [LinearOrder id_t] [Inhabited id_t] [Inhabited H]
    (entries : List (Entry id_t H)) : MergeIterator id_t H :=
  increment { _its := entries.filter (fun entry => !entry.1.at_end), _current := default }

/-- The method `equal`: `_its == other._its`. -/
def equal {id_t H : Type} [DecidableEq id_t] [DecidableEq H] (m other : MergeIterator id_t H) :
    Bool :=
  decide (m._its = other._its)

/-- The method `dereference`. -/
def dereference {id_t H : Type} (m : MergeIterator id_t H) : Term id_t × H := m._current

/-- The loop `for (; it != end; ++it) out.push_back(*it)` against the
    default-constructed `MergeIterator`.  `none` when `fuel` turns did not
    reach `end`. -/
def collect {id_t H : Type} [LinearOrder id_t] [Inhabited id_t] [Inhabited H] [DecidableEq H] :
    Nat → MergeIterator id_t H → Option (List (Term id_t × H))
  | 0, m => if m.equal (sentinel id_t H) then some [] else none
  | fuel + 1, m =>
    if m.equal (sentinel id_t H) then some []
    else
      match collect fuel m.increment with
      | none => none
      | some out => some (m.dereference :: out)

/-- The pairs a `MergeIterator` built from `entries` emits up to the
    default-constructed sentinel. -/
def emitted {id_t H : Type} [LinearOrder id_t] [Inhabited id_t] [Inhabited H] [DecidableEq H]
    (fuel : Nat) (entries : List (Entry id_t H)) : Option (List (Term id_t × H)) :=
  collect fuel (construct entries)

end MergeIterator

/-- The number of terms the entries hold. -/
def total_terms {id_t H : Type} (entries : List (Entry id_t H)) : Nat :=
  (entries.map (fun entry => entry.1.terms.length)).sum

/-- The entries of a collection of term sequences, the handle of each its
    position in the collection. -/
def positioned {id_t : Type} (inputs : List (List (Term id_t))) : List (Entry id_t Nat) :=
  inputs.enum.map (fun p => ({ terms := p.2 }, p.1))

/-- The order of the emitted pairs: by the id of the term, and among equal
    ids by the relation `R` between the handles. -/
def MergeIterator.le_by {id_t H : Type} [LinearOrder id_t] (R : H → H → Prop)
    (x y : Term id_t × H) : Prop :=
  x.1.id < y.1.id ∨ (x.1.id = y.1.id ∧ R x.2 y.2)

/-- The entries a `MergeIterator` holds while it runs: none is at its end,
    each holds a non-decreasing sequence of terms, and the handles are related
    by `R` along the vector. -/
def MergeIterator.well_formed {id_t H : Type} [LinearOrder id_t] (R : H → H → Prop)
    (its : List (Entry id_t H)) : Prop :=
  (∀ e ∈ its, e.1.terms ≠ [] ∧ e.1.terms.Pairwise (fun a b => a.id ≤ b.id))
    ∧ (its.map Prod.snd).Pairwise R

/-- The pair `cur` is below every term the entries still hold. -/
def MergeIterator.bounded_below {id_t H : Type} [LinearOrder id_t] (R : H → H → Prop)
    (cur : Term id_t × H) (its : List (Entry id_t H)) : Prop :=
  ∀ e ∈ its, ∀ t ∈ e.1.terms, MergeIterator.le_by R cur (t, e.2)

/-- The iterator after `n` applications of `operator++`. -/
def MergeIterator.increments {id_t H : Type} [LinearOrder id_t] [Inhabited id_t] :
    Nat → MergeIterator id_t H → MergeIterator id_t H
  | 0, m => m
  | n + 1, m => MergeIterator.increments n m.increment

/-- The entries `its` are what is left of input entries: none is at its end,
    and each holds a tail of the terms of an input entry, with its handle. -/
def MergeIterator.drawn_from {id_t H : Type} (entries its : List (Entry id_t H)) : Prop :=
  ∀ x ∈ its, x.1.terms ≠ [] ∧ ∃ e ∈ entries, x.2 = e.2 ∧ List.IsSuffix x.1.terms e.1.terms

/-- The pair `cur` is a term of an input entry with the handle of that entry. -/
def MergeIterator.current_from {id_t H : Type} (entries : List (Entry id_t H))
    (cur : Term id_t × H) : Prop :=
  ∃ e ∈ entries, cur.2 = e.2 ∧ cur.1 ∈ e.1.terms

/-! ## `ExecutorService` (executor_service.cpp) -/

/-- A task `std::function<void()>`, given by what running it does: it returns,
    or it throws a `std::exception` whose `what()` is the message. -/
abbrev Task := Except String Unit

/-- The members of `ExecutorService` that the pool mutex protects. -/
structure ExecutorService where
  _num_tasks_running : Nat
  _stop : Bool
  _tasks : List Task
  _failure_cause : String

namespace ExecutorService

/-- The constructor `ExecutorService(threads)` (lines 8-14); the string
    `_failure_cause` is default-constructed, that is empty. -/
def construct (threads : Nat) : ExecutorService :=
  { _num_tasks_running := threads, _stop := false, _tasks := [], _failure_cause := "" }

/-- The handler `catch (std::exception const& ex)` of `work` (lines 43-53),
    `what` being `ex.what()`. -/
def catch_block (s : ExecutorService) (what : String) : ExecutorService :=
  { s with
    _stop := true,
    _failure_cause := if !s._failure_cause.isEmpty then what else s._failure_cause }

/-- The statement `try { task(); } catch ...` of `work` (lines 40-53). -/
def run_task (s : ExecutorService) (task : Task) : ExecutorService :=
  match task with
  | .ok () => s
  | .error what => s.catch_block what

/-- The method `await_completion` (lines 57-63).  `complete` is the predicate
    `Complete` of `executor_service.hpp`, which is not among the sources; while
    it is false the caller stays blocked (`none`).  `.error m` is
    `throw imhotep_error(m)`, `.ok ()` the normal return. -/
def await_completion (complete : ExecutorService → Bool) (s : ExecutorService) :
    Option (Except String Unit) :=
  if complete s then
    if !s._failure_cause.isEmpty then some (.error s._failure_cause) else some (.ok ())
  else none

end ExecutorService

/-! ## `doc_ids_encode` (test_utils.h, lines 106-118) -/

/-- Conversion of a value to `uint32_t`. -/
def toUInt32 (v : Int) : Nat := (v % 2 ^ 32).toNat

/-- The loop of `doc_ids_encode` (lines 112-115): `value` is the `uint32_t`
    that holds the previous id, `deltas` the vector of `uint32_t` built so
    far; `*current - value` is taken in 32-bit unsigned arithmetic. -/
def doc_ids_deltas : List Int → Nat → List Nat → List Nat
  | [], _, deltas => deltas
  | current :: rest, value, deltas =>
    doc_ids_deltas rest (toUInt32 current) (deltas ++ [toUInt32 (current - (value : Int))])

/-- The function `doc_ids_encode(begin, end, out)`: the deltas are handed to
    `varint_encode` with its default `int_t`. -/
def doc_ids_encode (ids : List Int) (out : List Nat) : List Nat :=
  varint_encode ((doc_ids_deltas ids 0 []).map Int.ofNat) out

/-! ## The steps of `ExecutorService` (executor_service.cpp) -/

namespace ExecutorService

/-- The head of the loop of `work`, under the mutex (lines 23-26): the counter
    of running tasks, a `size_t`, is decremented; `notify_all` changes no
    member. -/
def enter_wait (s : ExecutorService) : ExecutorService :=
  { s with _num_tasks_running := toUInt64 ((s._num_tasks_running : Int) - 1) }

/-- The rest of the critical section of `work` (lines 28-37), the mutex held
    from the end of the wait on: the task at the front of the queue and the
    pool with that task popped and the counter incremented.  `unblocked` is the
    predicate `Unblocked` of `executor_service.hpp`, which is not among the
    sources.  `none` when no task is dequeued: the worker is still blocked, or
    it returns because `_stop` is set, or the queue has no front. -/
def dequeue (unblocked : ExecutorService → Bool) (s : ExecutorService) :
    Option (Task × ExecutorService) :=
  if unblocked s then
    if s._stop then none
    else
      match s._tasks with
      | [] => none
      | task :: rest =>
        some (task, { s with
                      _tasks := rest,
                      _num_tasks_running := toUInt64 ((s._num_tasks_running : Int) + 1) })
  else none

/-- The critical section of the destructor (lines 66-69). -/
def destructor (s : ExecutorService) : ExecutorService :=
  { s with _stop := true }

/-- The steps of the pool: each is one run of a critical section of
    `executor_service.cpp`, or the end of a task. -/
inductive Event where
  /-- A worker enters the wait. -/
  | enter_wait
  /-- A worker leaves the wait and dequeues a task, which it then runs. -/
  | dequeue
  /-- A running task returns. -/
  | task_succeeds
  /-- A running task throws a `std::exception` with the message `what`. -/
  | task_fails (what : String)
  /-- The destructor sets the stop flag. -/
  | destructor
deriving DecidableEq, Repr

/-- The step relation of the pool: the state after the event, `none` when the
    event cannot take place in `s`. -/
def step (unblocked : ExecutorService → Bool) (s : ExecutorService) :
    Event → Option ExecutorService
  | .enter_wait => some s.enter_wait
  | .dequeue => (s.dequeue unblocked).map Prod.snd
  | .task_succeeds => some (s.run_task (.ok ()))
  | .task_fails what => some (s.run_task (.error what))
  | .destructor => some s.destructor

/-- A run of the pool: the state after a sequence of events, `none` when one
    of them cannot take place. -/
def run (unblocked : ExecutorService → Bool) :
    ExecutorService → List Event → Option ExecutorService
  | s, [] => some s
  | s, ev :: evs =>
    match step unblocked s ev with
    | none => none
    | some s1 => run unblocked s1 evs

end ExecutorService

/-! ## The varint format, as the specification words it -/

/-- The `k` base-128 digits of `v`, least significant first, the bit `0x80`
    set on every byte but the last. -/
def base128_digits (k v : Nat) : List Nat :=
  (List.range k).map (fun i => v / 0x80 ^ i % 0x80 + if i + 1 < k then 0x80 else 0)

/-- The successive differences of 32-bit unsigned values, the first taken
    from `prev`, modulo 2^32. -/
def differences (prev : Nat) : List Nat → List Nat
  | [] => []
  | d :: ds => (d + 2 ^ 32 - prev) % 2 ^ 32 :: differences d ds

/-- The running sums of a list of values, from `start`. -/
def running_sums (start : Int) : List Int → List Int
  | [] => []
  | x :: xs => (start + x) :: running_sums (start + x) xs

/-! ## Theorems: varint codec -/

theorem toSigned_of_lt (w p : Nat) (h : p < 2 ^ (w - 1)) (hw : 1 ≤ w) :
    toSigned w p = (p : Int) := by
  have h2 : 2 ^ (w - 1) ≤ 2 ^ w := Nat.pow_le_pow_right (by decide) (by omega)
  have h3 : p % 2 ^ w = p := Nat.mod_eq_of_lt (by omega)
  simp [toSigned, h3, h]

theorem int_cast_of_range (x : Int) (h0 : 0 ≤ x) (h1 : x < 2 ^ 31) : int_cast x = x := by
  unfold int_cast toSigned
  have e : ((x % 2 ^ 32).toNat) % 2 ^ 32 = x.toNat := by omega
  rw [e]
  have : x.toNat < 2 ^ (32 - 1) := by omega
  simp only [this, if_true]
  omega

theorem or_shift (a b k : Nat) (h : a < 2 ^ k) : a ||| (b <<< k) = a + b * 2 ^ k := by
  rw [Nat.shiftLeft_eq, Nat.or_comm, Nat.mul_comm, ← Nat.mul_add_lt_is_or h, Nat.add_comm]

theorem and_7F (b : Nat) : b &&& 0x7F = b % 0x80 := Nat.and_pow_two_sub_one_eq_mod b 7

theorem ldiff_7F (m : Nat) : Nat.ldiff 0x7F m = 0x7F - m % 0x80 := by
  apply Nat.eq_of_testBit_eq
  intro i
  have h1 : (0x7F : Nat) = 2 ^ 7 - 1 := by norm_num
  have h2 : 0x7F - m % 0x80 = 2 ^ 7 - (m % 2 ^ 7 + 1) := by omega
  rw [Nat.testBit_ldiff, h2, Nat.testBit_two_pow_sub_succ (Nat.mod_lt _ (by norm_num)),
    Nat.testBit_mod_two_pow, h1, Nat.testBit_two_pow_sub_one]
  cases decide (i < 7) <;> cases m.testBit i <;> rfl

/-- The mask `v & 0x7F` of an `int`, negative or not, is the remainder of `v`
    modulo 128: the low seven bits of the two's-complement form. -/
theorem land_7F_eq_emod (v : Int) : Int.land v 0x7F = v % 0x80 := by
  cases v with
  | ofNat n =>
    have e : Int.land (Int.ofNat n) 0x7F = ((n &&& 0x7F : Nat) : Int) := rfl
    rw [e, and_7F]
    simp
  | negSucc m =>
    have e : Int.land (Int.negSucc m) 0x7F = ((Nat.ldiff 0x7F m : Nat) : Int) := rfl
    rw [e, ldiff_7F, Int.negSucc_eq]
    omega

namespace VarIntView

theorem read_varint_loop_stop (w : Nat) (bytes : List Nat) (a r s b : Nat) (hb : b < 0x80) :
    read_varint_loop w bytes a r s b
      = .ok (toSigned w ((r ||| (((b &&& 0x7F) <<< s) % 2 ^ 64)) % 2 ^ w),
             { _begin := a, bytes := bytes }) := by
  unfold read_varint_loop
  simp [hb]

theorem read_varint_loop_cont (w : Nat) (c : Nat) (rest : List Nat) (a r s b : Nat)
    (hb : 0x80 ≤ b) :
    read_varint_loop w (c :: rest) a r s b
      = read_varint_loop w rest (a + 1) ((r ||| (((b &&& 0x7F) <<< s) % 2 ^ 64)) % 2 ^ w)
          (s + 7) (c % 256) := by
  rw [read_varint_loop]
  simp [Nat.not_lt.mpr hb]

theorem read_varint_loop_underrun (w : Nat) (a r s b : Nat) (hb : 0x80 ≤ b) :
    read_varint_loop w [] a r s b = .error .assert_not_empty := by
  rw [read_varint_loop]
  simp [Nat.not_lt.mpr hb]

/-- The accumulator step of `read_varint` adds the payload of `b` at `shift`
    when nothing overflows. -/
theorem accumulate_eq (w r s b : Nat) (hr : r < 2 ^ s) (hs : s + 7 ≤ 64)
    (hv : r + b % 0x80 * 2 ^ s < 2 ^ w) :
    (r ||| (((b &&& 0x7F) <<< s) % 2 ^ 64)) % 2 ^ w = r + b % 0x80 * 2 ^ s := by
  have h1 : (b &&& 0x7F) <<< s = b % 0x80 * 2 ^ s := by rw [and_7F, Nat.shiftLeft_eq]
  have h2 : b % 0x80 * 2 ^ s < 2 ^ 64 := by
    have hb : b % 0x80 < 2 ^ 7 := Nat.mod_lt _ (by decide)
    calc b % 0x80 * 2 ^ s < 2 ^ 7 * 2 ^ s :=
          Nat.mul_lt_mul_of_pos_right hb (Nat.pow_pos (by decide))
      _ = 2 ^ (7 + s) := (Nat.pow_add 2 7 s).symm
      _ ≤ 2 ^ 64 := Nat.pow_le_pow_right (by decide) (by omega)
  rw [h1, Nat.mod_eq_of_lt h2]
  have h3 : r ||| b % 0x80 * 2 ^ s = r + b % 0x80 * 2 ^ s := by
    have h := or_shift r (b % 0x80) s hr
    rwa [Nat.shiftLeft_eq] at h
  rw [h3, Nat.mod_eq_of_lt hv]

theorem is_varint_head_lt (b : Nat) (bs : List Nat) (h : is_varint (b :: bs) = true) :
    b < 0x100 := by
  cases bs with
  | nil => simp [is_varint] at h; omega
  | cons c bs => simp [is_varint] at h; omega

/-- Reading a terminated varint that does not overflow yields the number it
    denotes and leaves the cursor behind its last byte. -/
theorem read_varint_loop_varint (w : Nat) (hw : 1 ≤ w) (rest : List Nat) :
    ∀ (bs : List Nat) (b a r s : Nat), is_varint (b :: bs) = true → r < 2 ^ s →
      s + 7 * (bs.length + 1) ≤ 64 → r + varint_value (b :: bs) * 2 ^ s < 2 ^ (w - 1) →
      read_varint_loop w (bs ++ rest) a r s b
        = .ok (((r + varint_value (b :: bs) * 2 ^ s : Nat) : Int),
               { _begin := a + bs.length, bytes := rest }) := by
  have hww : 2 ^ (w - 1) ≤ 2 ^ w := Nat.pow_le_pow_right (by decide) (by omega)
  intro bs
  induction bs with
  | nil =>
    intro b a r s hv hr hs hlt
    have hb : b < 0x80 := by simpa [is_varint] using hv
    have e : varint_value [b] = b % 0x80 := by simp [varint_value]
    rw [e] at hlt ⊢
    rw [List.nil_append, read_varint_loop_stop w rest a r s b hb,
      accumulate_eq w r s b hr (by simp at hs; omega) (by omega), toSigned_of_lt _ _ hlt hw]
    simp
  | cons c bs ih =>
    intro b a r s hv hr hs hlt
    have hv2 : 0x80 ≤ b ∧ b < 0x100 ∧ is_varint (c :: bs) = true := by
      simpa [is_varint, and_assoc] using hv
    obtain ⟨hb1, _, hv3⟩ := hv2
    have hc : c % 256 = c := Nat.mod_eq_of_lt (is_varint_head_lt c bs hv3)
    have e : varint_value (b :: c :: bs) = b % 0x80 + 0x80 * varint_value (c :: bs) := by
      simp [varint_value]
    have hp : 2 ^ (s + 7) = 0x80 * 2 ^ s := by rw [Nat.pow_add]; omega
    have hm : b % 0x80 * 2 ^ s ≤ 0x7F * 2 ^ s :=
      Nat.mul_le_mul_right _ (by omega)
    have hsum : r + b % 0x80 * 2 ^ s + varint_value (c :: bs) * 2 ^ (s + 7)
        = r + varint_value (b :: c :: bs) * 2 ^ s := by
      rw [e, hp]; ring
    have hlt2 : r + b % 0x80 * 2 ^ s < 2 ^ w := by
      have : r + b % 0x80 * 2 ^ s ≤ r + varint_value (b :: c :: bs) * 2 ^ s := by
        rw [← hsum]; omega
      omega
    rw [List.cons_append, read_varint_loop_cont w c (bs ++ rest) a r s b hb1,
      accumulate_eq w r s b hr (by simp at hs; omega) hlt2, hc,
      ih c (a + 1) (r + b % 0x80 * 2 ^ s) (s + 7) hv3 (by rw [hp]; omega)
        (by simp at hs ⊢; omega) (by rw [hsum]; exact hlt), hsum]
    simp [Nat.add_assoc, Nat.add_comm 1]

/-- The idiom `read_varint<int_t>(read())` on a view that starts with a
    terminated varint `vb` fitting the integer type. -/
theorem read_varint_read_varint (w : Nat) (hw : 1 ≤ w) (vb rest : List Nat) (a : Nat)
    (hv : is_varint vb = true) (hl : 7 * vb.length ≤ 64) (hlt : varint_value vb < 2 ^ (w - 1)) :
    read_varint_read w { _begin := a, bytes := vb ++ rest }
      = .ok ((varint_value vb : Int), { _begin := a + vb.length, bytes := rest }) := by
  cases vb with
  | nil => simp [is_varint] at hv
  | cons b bs =>
    have hb : b % 256 = b := Nat.mod_eq_of_lt (is_varint_head_lt b bs hv)
    have h := read_varint_loop_varint w hw rest bs b (a + 1) 0 0 hv (by simp)
      (by simp at hl ⊢; omega) (by simpa using hlt)
    simp only [read_varint_read, read, read_varint, List.cons_append, hb]
    rw [h]
    simp [Nat.add_assoc, Nat.add_comm 1]

end VarIntView

theorem toByte_natCast (k : Nat) : toByte (k : Int) = k % 256 := by
  unfold toByte; omega

theorem land_lor_natCast (n k : Nat) :
    toByte (Int.lor (Int.land (Int.shiftRight (n : Int) k) 0x7F) 0x80)
      = (n / 2 ^ k) % 0x80 + 0x80 := by
  have e : Int.lor (Int.land (Int.shiftRight (n : Int) k) 0x7F) 0x80
      = (((n >>> k) &&& 0x7F ||| 0x80 : Nat) : Int) := rfl
  rw [e, toByte_natCast, and_7F, Nat.shiftRight_eq_div_pow]
  have h := or_shift (n / 2 ^ k % 0x80) 1 7 (Nat.mod_lt _ (by decide))
  have h1 : (1 : Nat) <<< 7 = 0x80 := by decide
  rw [h1] at h
  rw [h]
  omega

theorem land_lor_natCast_zero (n : Nat) :
    toByte (Int.lor (Int.land (n : Int) 0x7F) 0x80) = n % 0x80 + 0x80 := by
  have h := land_lor_natCast n 0
  have e : Int.shiftRight (n : Int) 0 = (n : Int) := rfl
  rw [e] at h
  simpa using h

theorem shiftRight_natCast (n k : Nat) :
    toByte (Int.shiftRight (n : Int) k) = (n / 2 ^ k) % 256 := by
  have e : Int.shiftRight (n : Int) k = ((n >>> k : Nat) : Int) := rfl
  rw [e, toByte_natCast, Nat.shiftRight_eq_div_pow]

/-- The encoding of a value `0 <= n < 2^31` is a terminated varint of at most
    five bytes that denotes `n`. -/
theorem varint_encode_value_spec (n : Nat) (h : n < 2 ^ 31) :
    is_varint (varint_encode_value (n : Int)) = true
      ∧ varint_value (varint_encode_value (n : Int)) = n
      ∧ (varint_encode_value (n : Int)).length ≤ 5 := by
  unfold varint_encode_value
  have h0 : ¬ ((n : Int) < 0) := by omega
  simp only [h0, if_false, land_lor_natCast, land_lor_natCast_zero, shiftRight_natCast,
    toByte_natCast]
  by_cases h1 : (n : Int) < 2 ^ 7
  · rw [if_pos h1]
    refine ⟨?_, ?_, ?_⟩
    · simp [is_varint]; omega
    · simp [varint_value]; omega
    · simp
  rw [if_neg h1]
  by_cases h2 : (n : Int) < 2 ^ 14
  · rw [if_pos h2]
    refine ⟨?_, ?_, ?_⟩
    · simp [is_varint]; omega
    · simp [varint_value]; omega
    · simp
  rw [if_neg h2]
  by_cases h3 : (n : Int) < 2 ^ 21
  · rw [if_pos h3]
    refine ⟨?_, ?_, ?_⟩
    · simp [is_varint]; omega
    · simp [varint_value]; omega
    · simp
  rw [if_neg h3]
  by_cases h4 : (n : Int) < 2 ^ 28
  · rw [if_pos h4]
    refine ⟨?_, ?_, ?_⟩
    · simp [is_varint]; omega
    · simp [varint_value]; omega
    · simp
  · rw [if_neg h4]
    refine ⟨?_, ?_, ?_⟩
    · simp [is_varint]; omega
    · simp [varint_value]; omega
    · simp

theorem varint_encode_append (xs : List Int) :
    ∀ out : List Nat, varint_encode xs out = out ++ varint_encode xs [] := by
  induction xs with
  | nil => intro out; simp [varint_encode]
  | cons x xs ih =>
    intro out
    rw [varint_encode, ih, varint_encode, ih (_ ++ _)]
    simp

theorem varint_encode_cons (x : Int) (xs : List Int) :
    varint_encode (x :: xs) [] = varint_encode_value (int_cast x) ++ varint_encode xs [] := by
  rw [varint_encode, varint_encode_append]
  simp

theorem VarIntView.empty_iff (v : VarIntView) : v.empty = true ↔ v.bytes = [] := by
  unfold VarIntView.empty VarIntView._end
  cases v.bytes <;> simp

theorem VarIntView.decode_all_encode (w : Nat) (hw : 32 ≤ w) (xs : List Int) :
    ∀ (fuel a : Nat), (∀ x ∈ xs, 0 ≤ x ∧ x < 2 ^ 31) → xs.length ≤ fuel →
      VarIntView.decode_all w fuel { _begin := a, bytes := varint_encode xs [] }
        = some (.ok (xs, { _begin := a + (varint_encode xs []).length, bytes := [] })) := by
  induction xs with
  | nil =>
    intro fuel a _ _
    cases fuel <;> simp [VarIntView.decode_all, VarIntView.empty_iff, varint_encode]
  | cons x xs ih =>
    intro fuel a hx hf
    cases fuel with
    | zero => simp at hf
    | succ fuel =>
      have hx0 := hx x (List.mem_cons_self _ _)
      obtain ⟨n, rfl⟩ := Int.eq_ofNat_of_zero_le hx0.1
      have hn : n < 2 ^ 31 := by have := hx0.2; omega
      obtain ⟨hv, hval, hlen⟩ := varint_encode_value_spec n hn
      have hlt : varint_value (varint_encode_value (n : Int)) < 2 ^ (w - 1) := by
        rw [hval]
        exact lt_of_lt_of_le hn (Nat.pow_le_pow_right (by decide) (by omega))
      have hr := VarIntView.read_varint_read_varint w (by omega) (varint_encode_value (n : Int))
        (varint_encode xs []) a hv (by omega) hlt
      rw [hval] at hr
      have hne : varint_encode_value (n : Int) ++ varint_encode xs [] ≠ [] := by
        intro h
        have h2 := (List.append_eq_nil.mp h).1
        rw [h2] at hv
        simp [is_varint] at hv
      have hemp : VarIntView.empty
          { _begin := a, bytes := varint_encode_value (n : Int) ++ varint_encode xs [] }
          = false := by
        rw [← Bool.not_eq_true, VarIntView.empty_iff]
        exact hne
      rw [varint_encode_cons, int_cast_of_range _ hx0.1 hx0.2, VarIntView.decode_all, hemp]
      simp only [hr, Bool.false_eq_true, if_false]
      rw [ih fuel _ (fun y hy => hx y (List.mem_cons_of_mem _ hy)) (by simpa using hf)]
      simp [Nat.add_assoc]

/-- C1. Varint round trip: for every list `xs` of integers with
    `0 <= x < 2^31`, encoding `xs` with `varint_encode` into an empty buffer and
    decoding a `VarIntView` over that buffer value by value, as
    `read_varint<int_t>(read())` for an `int_t` of at least 32 bits, until the
    view is empty yields exactly `xs`, without failure, and leaves the cursor at
    the end of the buffer with no byte unread. -/
theorem varint_round_trip (xs : List Int) (h : ∀ x ∈ xs, 0 ≤ x ∧ x < 2 ^ 31)
    (w : Nat) (hw : 32 ≤ w) (a fuel : Nat) (hf : xs.length ≤ fuel) :
    VarIntView.decode_all w fuel { _begin := a, bytes := varint_encode xs [] }
      = some (.ok (xs, { _begin := a + (varint_encode xs []).length, bytes := [] })) :=
  VarIntView.decode_all_encode w hw xs fuel a h hf

theorem varint_round_trip_witness :
    VarIntView.decode_all 32 4
        { _begin := 4096, bytes := varint_encode [0, 127, 128, 2147483647] [] }
      = some (.ok ([0, 127, 128, 2147483647],
          { _begin := 4096 + (varint_encode [0, 127, 128, 2147483647] []).length,
            bytes := [] })) :=
  varint_round_trip [0, 127, 128, 2147483647] (by decide) 32 (by decide) 4096 4 (by decide)

/-! ## Theorems: numeric term decoding -/

namespace MergeIterator

theorem total_terms_append {id_t H : Type} (xs ys : List (Entry id_t H)) :
    total_terms (xs ++ ys) = total_terms xs + total_terms ys := by
  simp [total_terms]

theorem total_terms_cons {id_t H : Type} (e : Entry id_t H) (ys : List (Entry id_t H)) :
    total_terms (e :: ys) = e.1.terms.length + total_terms ys := by
  simp [total_terms]

theorem le_by_trans {id_t H : Type} [LinearOrder id_t] (R : H → H → Prop)
    (htrans : ∀ a b c, R a b → R b c → R a c)
    (x y z : Term id_t × H) (hxy : le_by R x y) (hyz : le_by R y z) : le_by R x z := by
  rcases hxy with h1 | ⟨h1, r1⟩
  · rcases hyz with h2 | ⟨h2, _⟩
    · exact Or.inl (lt_trans h1 h2)
    · exact Or.inl (by rw [← h2]; exact h1)
  · rcases hyz with h2 | ⟨h2, r2⟩
    · exact Or.inl (by rw [h1]; exact h2)
    · exact Or.inr ⟨h1.trans h2, htrans _ _ _ r1 r2⟩

theorem well_formed_total_pos {id_t H : Type} [LinearOrder id_t] (R : H → H → Prop)
    (its : List (Entry id_t H))
    (hwf : well_formed R its) (hne : its ≠ []) : 0 < total_terms its := by
  cases its with
  | nil => exact absurd rfl hne
  | cons e tl =>
    have h := (hwf.1 e (by simp)).1
    rw [total_terms_cons]
    have : 0 < e.1.terms.length := List.length_pos.mpr h
    omega

theorem total_terms_filter {id_t H : Type} (entries : List (Entry id_t H)) :
    total_terms (entries.filter (fun entry => !entry.1.at_end)) = total_terms entries := by
  induction entries with
  | nil => rfl
  | cons e tl ih =>
    by_cases h : e.1.at_end = true
    · have h0 : e.1.terms.length = 0 := by
        simpa [SplitIterator.at_end] using h
      simp only [List.filter_cons, h, Bool.not_true, Bool.false_eq_true, if_false]
      rw [ih, total_terms_cons, h0]
      omega
    · simp only [List.filter_cons, h, Bool.not_false, if_true]
      rw [total_terms_cons, total_terms_cons, ih]

section
variable {id_t H : Type} [LinearOrder id_t] [Inhabited id_t]

theorem lowest_loop_split (rest : List (Entry id_t H)) :
    ∀ (pre p1 p2 : List (Entry id_t H)) (el : Entry id_t H), pre = p1 ++ el :: p2 →
      (∀ x ∈ p1, el.1.dereference.id < x.1.dereference.id) →
      (∀ x ∈ p2, el.1.dereference.id ≤ x.1.dereference.id) →
      ∃ q1 q2, pre ++ rest = q1 ++ (lowest_loop rest pre.length (p1.length, el)).2 :: q2
        ∧ q1.length = (lowest_loop rest pre.length (p1.length, el)).1
        ∧ (∀ x ∈ q1, (lowest_loop rest pre.length (p1.length, el)).2.1.dereference.id
            < x.1.dereference.id)
        ∧ (∀ x ∈ q2, (lowest_loop rest pre.length (p1.length, el)).2.1.dereference.id
            ≤ x.1.dereference.id) := by
  induction rest with
  | nil =>
    intro pre p1 p2 el hpre h1 h2
    exact ⟨p1, p2, by simp [hpre, lowest_loop], by simp [lowest_loop],
      by simpa [lowest_loop] using h1,
      by simpa [lowest_loop] using h2⟩
  | cons entry rest ih =>
    intro pre p1 p2 el hpre h1 h2
    have hlen : (pre ++ [entry]).length = pre.length + 1 := by simp
    have happ : pre ++ entry :: rest = (pre ++ [entry]) ++ rest := by simp
    by_cases hlt : entry.1.dereference.id < el.1.dereference.id
    · have hstep : lowest_loop (entry :: rest) pre.length (p1.length, el)
          = lowest_loop rest (pre ++ [entry]).length (pre.length, entry) := by
        rw [lowest_loop, hlen]
        simp [Term.lt, hlt]
      rw [hstep, happ]
      refine ih (pre ++ [entry]) pre [] entry (by simp) ?_ (by simp)
      intro x hx
      rw [hpre] at hx
      rcases List.mem_append.mp hx with hx1 | hx2
      · exact lt_trans hlt (h1 x hx1)
      · rcases List.mem_cons.mp hx2 with hx3 | hx4
        · rw [hx3]; exact hlt
        · exact lt_of_lt_of_le hlt (h2 x hx4)
    · have hstep : lowest_loop (entry :: rest) pre.length (p1.length, el)
          = lowest_loop rest (pre ++ [entry]).length (p1.length, el) := by
        rw [lowest_loop, hlen]
        simp [Term.lt, hlt]
      rw [hstep, happ]
      refine ih (pre ++ [entry]) p1 (p2 ++ [entry]) el (by simp [hpre]) h1 ?_
      intro x hx
      rcases List.mem_append.mp hx with hx1 | hx2
      · exact h2 x hx1
      · rw [List.mem_singleton.mp hx2]; exact not_lt.mp hlt

theorem lowest_loop_first (first : Entry id_t H) (tl : List (Entry id_t H)) :
    ∃ q1 q2, first :: tl = q1 ++ (lowest_loop (first :: tl) 0 (0, first)).2 :: q2
      ∧ q1.length = (lowest_loop (first :: tl) 0 (0, first)).1
      ∧ (∀ x ∈ q1, (lowest_loop (first :: tl) 0 (0, first)).2.1.dereference.id
          < x.1.dereference.id)
      ∧ (∀ x ∈ q2, (lowest_loop (first :: tl) 0 (0, first)).2.1.dereference.id
          ≤ x.1.dereference.id) := by
  have hstep : lowest_loop (first :: tl) 0 (0, first) = lowest_loop tl 1 (0, first) := by
    rw [lowest_loop]
    simp [Term.lt]
  rw [hstep]
  have h := lowest_loop_split tl [first] [] [] first rfl (by simp) (by simp)
  simpa using h

theorem eraseIdx_split {α : Type} (q1 q2 : List α) (e : α) :
    (q1 ++ e :: q2).eraseIdx q1.length = q1 ++ q2 := by
  induction q1 with
  | nil => rfl
  | cons a q1 ih => simp [List.eraseIdx, ih]

theorem set_split {α : Type} (q1 q2 : List α) (e e2 : α) :
    (q1 ++ e :: q2).set q1.length e2 = q1 ++ e2 :: q2 := by
  induction q1 with
  | nil => rfl
  | cons a q1 ih => simp [List.set, ih]

/-- One `increment` of a `MergeIterator` with entries: the vector splits at the
    first entry with the lowest current term, that term becomes the current
    value, and the entry is advanced, or erased when it reaches its end. -/
theorem increment_split (m : MergeIterator id_t H) (hne : m._its ≠ []) :
    ∃ q1 e q2, m._its = q1 ++ e :: q2
      ∧ (∀ x ∈ q1, e.1.dereference.id < x.1.dereference.id)
      ∧ (∀ x ∈ q2, e.1.dereference.id ≤ x.1.dereference.id)
      ∧ m.increment = { _current := (e.1.dereference, e.2),
                        _its := if e.1.increment.at_end then q1 ++ q2
                                else q1 ++ (e.1.increment, e.2) :: q2 } := by
  cases hits : m._its with
  | nil => exact absurd hits hne
  | cons first tl =>
    obtain ⟨q1, q2, hsplit, hlen, h1, h2⟩ := lowest_loop_first first tl
    refine ⟨q1, (lowest_loop (first :: tl) 0 (0, first)).2, q2, hsplit, h1, h2, ?_⟩
    unfold increment
    rw [hits]
    simp only
    generalize lowest_loop (first :: tl) 0 (0, first) = res at hsplit hlen h1 h2 ⊢
    rw [← hlen, hsplit, eraseIdx_split, set_split]

theorem dereference_le (s : SplitIterator id_t)
    (hs : s.terms.Pairwise (fun a b => a.id ≤ b.id)) :
    ∀ u ∈ s.terms, s.dereference.id ≤ u.id := by
  intro u hu
  cases hterms : s.terms with
  | nil => rw [hterms] at hu; simp at hu
  | cons t ts =>
    rw [hterms] at hu hs
    simp only [SplitIterator.dereference, hterms, List.headD_cons]
    rcases List.mem_cons.mp hu with h | h
    · rw [h]
    · exact (List.pairwise_cons.mp hs).1 u h

/-- One `increment` keeps the entries well formed, loads one of the held
    terms, which is below all that remain, and consumes exactly one term. -/
theorem increment_step (R : H → H → Prop) (hrefl : ∀ h, R h h) (m : MergeIterator id_t H)
    (hne : m._its ≠ []) (hwf : well_formed R m._its) :
    well_formed R m.increment._its
      ∧ bounded_below R m.increment._current m.increment._its
      ∧ (∃ e ∈ m._its, ∃ t ∈ e.1.terms, m.increment._current = (t, e.2))
      ∧ total_terms m.increment._its + 1 = total_terms m._its := by
  obtain ⟨q1, e, q2, hsplit, h1, h2, hinc⟩ := increment_split m hne
  obtain ⟨hent, hpair⟩ := hwf
  rw [hsplit] at hent hpair
  have he := hent e (by simp)
  have hq1 : ∀ x ∈ q1, x.1.terms ≠ [] ∧ x.1.terms.Pairwise (fun a b => a.id ≤ b.id) :=
    fun x hx => hent x (by simp [hx])
  have hq2 : ∀ x ∈ q2, x.1.terms ≠ [] ∧ x.1.terms.Pairwise (fun a b => a.id ≤ b.id) :=
    fun x hx => hent x (by simp [hx])
  simp only [List.map_append, List.map_cons] at hpair
  have hpair2 := List.pairwise_append.mp hpair
  have hRq2 : ∀ x ∈ q2, R e.2 x.2 := by
    intro x hx
    exact (List.pairwise_cons.mp hpair2.2.1).1 x.2 (List.mem_map_of_mem _ hx)
  cases hterms : e.1.terms with
  | nil => exact absurd hterms he.1
  | cons t ts =>
    have hder : e.1.dereference = t := by simp [SplitIterator.dereference, hterms]
    have hts : e.1.increment.terms = ts := by simp [SplitIterator.increment, hterms]
    have hsorted := he.2
    rw [hterms] at hsorted
    have htail := (List.pairwise_cons.mp hsorted)
    rw [hder] at h1 h2 hinc
    -- the bound for the entries before and after the lowest one
    have hb1 : ∀ x ∈ q1, ∀ u ∈ x.1.terms, le_by R (t, e.2) (u, x.2) := by
      intro x hx u hu
      exact Or.inl (lt_of_lt_of_le (h1 x hx) (dereference_le x.1 (hq1 x hx).2 u hu))
    have hb2 : ∀ x ∈ q2, ∀ u ∈ x.1.terms, le_by R (t, e.2) (u, x.2) := by
      intro x hx u hu
      have hle : t.id ≤ u.id := le_trans (h2 x hx) (dereference_le x.1 (hq2 x hx).2 u hu)
      rcases lt_or_eq_of_le hle with h | h
      · exact Or.inl h
      · exact Or.inr ⟨h, hRq2 x hx⟩
    have hb3 : ∀ u ∈ ts, le_by R (t, e.2) (u, e.2) := by
      intro u hu
      rcases lt_or_eq_of_le (htail.1 u hu) with h | h
      · exact Or.inl h
      · exact Or.inr ⟨h, hrefl _⟩
    have hcur : m.increment._current = (t, e.2) := by rw [hinc]
    have hmem : ∃ e0 ∈ m._its, ∃ t0 ∈ e0.1.terms, m.increment._current = (t0, e0.2) :=
      ⟨e, by rw [hsplit]; simp, t, by rw [hterms]; simp, hcur⟩
    have htot : total_terms m._its = total_terms q1 + (ts.length + 1 + total_terms q2) := by
      rw [hsplit, total_terms_append, total_terms_cons, hterms]
      simp
    by_cases hend : e.1.increment.at_end = true
    · have hits : m.increment._its = q1 ++ q2 := by rw [hinc]; simp [hend]
      have hnil : ts = [] := by
        simpa [SplitIterator.at_end, hts] using hend
      refine ⟨⟨?_, ?_⟩, ?_, hmem, ?_⟩
      · intro x hx
        rw [hits] at hx
        rcases List.mem_append.mp hx with h | h
        · exact hq1 x h
        · exact hq2 x h
      · rw [hits, List.map_append]
        exact List.pairwise_append.mpr ⟨hpair2.1, (List.pairwise_cons.mp hpair2.2.1).2,
          fun a ha b hb => hpair2.2.2 a ha b (List.mem_cons_of_mem _ hb)⟩
      · intro x hx u hu
        rw [hcur]
        rw [hits] at hx
        rcases List.mem_append.mp hx with h | h
        · exact hb1 x h u hu
        · exact hb2 x h u hu
      · rw [hits, htot, total_terms_append, hnil]
        simp
        omega
    · have hits : m.increment._its = q1 ++ (e.1.increment, e.2) :: q2 := by
        rw [hinc]; simp [hend]
      have hnn : ts ≠ [] := by
        intro h
        apply hend
        simp [SplitIterator.at_end, hts, h]
      refine ⟨⟨?_, ?_⟩, ?_, hmem, ?_⟩
      · intro x hx
        rw [hits] at hx
        rcases List.mem_append.mp hx with h | h
        · exact hq1 x h
        · rcases List.mem_cons.mp h with h | h
          · rw [h]
            simp only [hts]
            exact ⟨hnn, htail.2⟩
          · exact hq2 x h
      · rw [hits]
        simpa using hpair
      · intro x hx u hu
        rw [hcur]
        rw [hits] at hx
        rcases List.mem_append.mp hx with h | h
        · exact hb1 x h u hu
        · rcases List.mem_cons.mp h with h | h
          · rw [h] at hu ⊢
            simp only [hts] at hu
            exact hb3 u hu
          · exact hb2 x h u hu
      · rw [hits, htot, total_terms_append, total_terms_cons]
        simp only [hts]
        omega

theorem equal_sentinel [Inhabited H] [DecidableEq H] (m : MergeIterator id_t H) :
    m.equal (sentinel id_t H) = true ↔ m._its = [] := by
  simp [equal, sentinel]

/-- The loop over a well-formed `MergeIterator` ends, emits as many pairs as
    the entries hold terms, and emits them in order. -/
theorem collect_spec [Inhabited H] [DecidableEq H] (R : H → H → Prop) (hrefl : ∀ h, R h h)
    (htrans : ∀ a b c, R a b → R b c → R a c) :
    ∀ (fuel : Nat) (m : MergeIterator id_t H), well_formed R m._its →
      bounded_below R m._current m._its → total_terms m._its ≤ fuel →
      ∃ out, collect fuel m = some out ∧ out.length = total_terms m._its
        ∧ out.Pairwise (le_by R) ∧ ∀ x ∈ out, le_by R m._current x := by
  intro fuel
  induction fuel with
  | zero =>
    intro m hwf _ hf
    have hnil : m._its = [] := by
      by_contra hne
      have := well_formed_total_pos R m._its hwf hne
      omega
    refine ⟨[], ?_, by simp [hnil, total_terms], List.Pairwise.nil, by simp⟩
    simp [collect, (equal_sentinel m).mpr hnil]
  | succ fuel ih =>
    intro m hwf hbound hf
    by_cases hnil : m._its = []
    · refine ⟨[], ?_, by simp [hnil, total_terms], List.Pairwise.nil, by simp⟩
      simp [collect, (equal_sentinel m).mpr hnil]
    · have hneq : m.equal (sentinel id_t H) = false := by
        rw [← Bool.not_eq_true, equal_sentinel]
        exact hnil
      obtain ⟨hwf2, hbound2, ⟨e, he, t, ht, hcur⟩, htot⟩ :=
        increment_step R hrefl m hnil hwf
      obtain ⟨out, hout, hlen, hpw, hall⟩ := ih m.increment hwf2 hbound2 (by omega)
      have hstep : le_by R m._current m.increment._current := by
        rw [hcur]
        exact hbound e he t ht
      refine ⟨m._current :: out, ?_, by simp [hlen]; omega, ?_, ?_⟩
      · rw [collect, hneq]
        simp [hout, dereference]
      · exact List.pairwise_cons.mpr
          ⟨fun x hx => le_by_trans R htrans _ _ _ hstep (hall x hx), hpw⟩
      · intro x hx
        rcases List.mem_cons.mp hx with h | h
        · rw [h]; exact Or.inr ⟨rfl, hrefl _⟩
        · exact le_by_trans R htrans _ _ _ hstep (hall x h)

/-- The pairs a `MergeIterator` emits over non-decreasing inputs: the loop
    ends, the pairs are in order, and they are one fewer than the terms of the
    inputs. -/
theorem emitted_spec [Inhabited H] [DecidableEq H] (R : H → H → Prop) (hrefl : ∀ h, R h h)
    (htrans : ∀ a b c, R a b → R b c → R a c) (entries : List (Entry id_t H))
    (hsorted : ∀ e ∈ entries, e.1.terms.Pairwise (fun a b => a.id ≤ b.id))
    (hR : (entries.map Prod.snd).Pairwise R) (fuel : Nat) (hf : total_terms entries ≤ fuel) :
    ∃ out, emitted fuel entries = some out ∧ out.Pairwise (le_by R)
      ∧ out.length = total_terms entries - 1 := by
  have hwf : well_formed R (entries.filter (fun entry => !entry.1.at_end)) := by
    refine ⟨?_, ?_⟩
    · intro e he
      have h := List.mem_filter.mp he
      refine ⟨?_, hsorted e h.1⟩
      have h2 := h.2
      intro hnil
      simp [SplitIterator.at_end, hnil] at h2
    · exact List.Pairwise.sublist (List.Sublist.map _ (List.filter_sublist _)) hR
  have htot := total_terms_filter entries
  by_cases hnil : entries.filter (fun entry => !entry.1.at_end) = []
  · refine ⟨[], ?_, List.Pairwise.nil, ?_⟩
    · have hc : construct entries = { _its := [], _current := default } := by
        simp [construct, hnil, increment]
      rw [emitted, hc]
      cases fuel <;> simp [collect, equal, sentinel]
    · rw [hnil] at htot
      rw [← htot]
      rfl
  · obtain ⟨hwf2, hbound2, _, htot2⟩ := increment_step R hrefl
      { _its := entries.filter (fun entry => !entry.1.at_end), _current := default } hnil hwf
    obtain ⟨out, hout, hlen, hpw, _⟩ := collect_spec R hrefl htrans fuel _ hwf2 hbound2
      (by simp only at htot2; omega)
    refine ⟨out, hout, hpw, ?_⟩
    rw [hlen]
    simp only at htot2
    omega

/-- One `increment` of a `MergeIterator` none of whose entries is at its end
    consumes exactly one term and leaves no entry at its end. -/
theorem increment_total (m : MergeIterator id_t H) (hne : m._its ≠ [])
    (hnn : ∀ e ∈ m._its, e.1.terms ≠ []) :
    (∀ e ∈ m.increment._its, e.1.terms ≠ [])
      ∧ total_terms m.increment._its + 1 = total_terms m._its := by
  obtain ⟨q1, e, q2, hsplit, _, _, hinc⟩ := increment_split m hne
  rw [hsplit] at hnn
  have he := hnn e (by simp)
  have hq1 : ∀ x ∈ q1, x.1.terms ≠ [] := fun x hx => hnn x (by simp [hx])
  have hq2 : ∀ x ∈ q2, x.1.terms ≠ [] := fun x hx => hnn x (by simp [hx])
  cases hterms : e.1.terms with
  | nil => exact absurd hterms he
  | cons t ts =>
    have hts : e.1.increment.terms = ts := by simp [SplitIterator.increment, hterms]
    have htot : total_terms m._its = total_terms q1 + (ts.length + 1 + total_terms q2) := by
      rw [hsplit, total_terms_append, total_terms_cons, hterms]
      simp
    by_cases hend : e.1.increment.at_end = true
    · have hits : m.increment._its = q1 ++ q2 := by rw [hinc]; simp [hend]
      have hnil : ts = [] := by
        simpa [SplitIterator.at_end, hts] using hend
      refine ⟨?_, ?_⟩
      · intro x hx
        rw [hits] at hx
        rcases List.mem_append.mp hx with h | h
        · exact hq1 x h
        · exact hq2 x h
      · rw [hits, htot, total_terms_append, hnil]
        simp
        omega
    · have hits : m.increment._its = q1 ++ (e.1.increment, e.2) :: q2 := by
        rw [hinc]; simp [hend]
      have hnn2 : ts ≠ [] := by
        intro h
        apply hend
        simp [SplitIterator.at_end, hts, h]
      refine ⟨?_, ?_⟩
      · intro x hx
        rw [hits] at hx
        rcases List.mem_append.mp hx with h | h
        · exact hq1 x h
        · rcases List.mem_cons.mp h with h | h
          · rw [h]
            simp only [hts]
            exact hnn2
          · exact hq2 x h
      · rw [hits, htot, total_terms_append, total_terms_cons]
        simp only [hts]
        omega

/-- The loop over a `MergeIterator` none of whose entries is at its end ends
    and emits as many pairs as the entries hold terms. -/
theorem collect_length [Inhabited H] [DecidableEq H] :
    ∀ (fuel : Nat) (m : MergeIterator id_t H), (∀ e ∈ m._its, e.1.terms ≠ []) →
      total_terms m._its ≤ fuel →
      ∃ out, collect fuel m = some out ∧ out.length = total_terms m._its := by
  intro fuel
  induction fuel with
  | zero =>
    intro m hnn hf
    have hnil : m._its = [] := by
      cases hits : m._its with
      | nil => rfl
      | cons e tl =>
        rw [hits] at hnn hf
        have h := hnn e (by simp)
        rw [total_terms_cons] at hf
        have : 0 < e.1.terms.length := List.length_pos.mpr h
        omega
    refine ⟨[], ?_, by simp [hnil, total_terms]⟩
    simp [collect, (equal_sentinel m).mpr hnil]
  | succ fuel ih =>
    intro m hnn hf
    by_cases hnil : m._its = []
    · refine ⟨[], ?_, by simp [hnil, total_terms]⟩
      simp [collect, (equal_sentinel m).mpr hnil]
    · have hneq : m.equal (sentinel id_t H) = false := by
        rw [← Bool.not_eq_true, equal_sentinel]
        exact hnil
      obtain ⟨hnn2, htot⟩ := increment_total m hnil hnn
      obtain ⟨out, hout, hlen⟩ := ih m.increment hnn2 (by omega)
      refine ⟨m._current :: out, ?_, by simp [hlen]; omega⟩
      rw [collect, hneq]
      simp [hout, dereference]

/-- The loop over a `MergeIterator` built from any entries ends, and emits one
    pair fewer than the entries hold terms (none when they hold none). -/
theorem emitted_length [Inhabited H] [DecidableEq H] (entries : List (Entry id_t H))
    (fuel : Nat) (hf : total_terms entries ≤ fuel) :
    ∃ out, emitted fuel entries = some out ∧ out.length = total_terms entries - 1 := by
  have hnn : ∀ e ∈ entries.filter (fun entry => !entry.1.at_end), e.1.terms ≠ [] := by
    intro e he hnil
    have h2 := (List.mem_filter.mp he).2
    simp [SplitIterator.at_end, hnil] at h2
  have htot := total_terms_filter entries
  by_cases hnil : entries.filter (fun entry => !entry.1.at_end) = []
  · refine ⟨[], ?_, ?_⟩
    · have hc : construct entries = { _its := [], _current := default } := by
        simp [construct, hnil, increment]
      rw [emitted, hc]
      cases fuel <;> simp [collect, equal, sentinel]
    · rw [hnil] at htot
      rw [← htot]
      rfl
  · obtain ⟨hnn2, htot2⟩ := increment_total
      { _its := entries.filter (fun entry => !entry.1.at_end), _current := default } hnil hnn
    obtain ⟨out, hout, hlen⟩ := collect_length fuel _ hnn2 (by simp only at htot2; omega)
    refine ⟨out, hout, ?_⟩
    rw [hlen]
    simp only at htot2
    omega

end

end MergeIterator

theorem positioned_handles {id_t : Type} (inputs : List (List (Term id_t))) :
    ((positioned inputs).map Prod.snd).Pairwise (fun a b => a ≤ b) := by
  have h : (positioned inputs).map Prod.snd = List.range inputs.length := by
    simp only [positioned, List.map_map]
    rw [← List.enum_map_fst]
    rfl
  rw [h]
  exact List.Pairwise.imp (fun h => Nat.le_of_lt h) (List.pairwise_lt_range _)

/-- C5. Merge order: for every collection of entries each of whose term
    sequences is non-decreasing, the loop that dereferences and increments the
    `MergeIterator` up to the default-constructed sentinel ends, and every
    pair it emits has a term that is not less than the term of any pair
    emitted before it, in particular of the previous one. -/
theorem merge_order {id_t H : Type} [LinearOrder id_t] [Inhabited id_t] [Inhabited H]
    [DecidableEq H] (entries : List (Entry id_t H))
    (hs : ∀ e ∈ entries, e.1.terms.Pairwise (fun a b => Term.lt b a = false))
    (fuel : Nat) (hf : total_terms entries ≤ fuel) :
    ∃ out, MergeIterator.emitted fuel entries = some out
      ∧ out.Pairwise (fun x y => Term.lt y.1 x.1 = false)
      ∧ out.Chain' (fun x y => Term.lt y.1 x.1 = false) := by
  have hs2 : ∀ e ∈ entries, e.1.terms.Pairwise (fun a b => a.id ≤ b.id) := by
    intro e he
    exact List.Pairwise.imp (fun h => by simpa [Term.lt] using h) (hs e he)
  obtain ⟨out, hout, hpw, _⟩ := MergeIterator.emitted_spec (fun _ _ => True)
    (fun _ => trivial) (fun _ _ _ _ _ => trivial) entries hs2
    (List.pairwise_of_forall (fun _ _ => trivial)) fuel hf
  have hpw2 : out.Pairwise (fun x y => Term.lt y.1 x.1 = false) := by
    refine List.Pairwise.imp ?_ hpw
    intro x y hxy
    simp only [Term.lt, decide_eq_false_iff_not, not_lt]
    rcases hxy with h | ⟨h, _⟩
    · exact le_of_lt h
    · exact le_of_eq h
  exact ⟨out, hout, hpw2, List.Pairwise.chain' hpw2⟩

theorem merge_order_witness :
    ∃ out, MergeIterator.emitted 6
        [(({ terms := [{ id := 1, doc_offset := 0, doc_freq := 3 },
                       { id := 4, doc_offset := 10, doc_freq := 1 },
                       { id := 9, doc_offset := 20, doc_freq := 2 }] } : SplitIterator Int), 100),
         ({ terms := [{ id := 2, doc_offset := 0, doc_freq := 5 },
                      { id := 4, doc_offset := 8, doc_freq := 7 },
                      { id := 7, doc_offset := 16, doc_freq := 1 }] }, 200)] = some out
      ∧ out.Pairwise (fun x y => Term.lt y.1 x.1 = false)
      ∧ out.Chain' (fun x y => Term.lt y.1 x.1 = false) :=
  merge_order
    [(({ terms := [{ id := 1, doc_offset := 0, doc_freq := 3 },
                   { id := 4, doc_offset := 10, doc_freq := 1 },
                   { id := 9, doc_offset := 20, doc_freq := 2 }] } : SplitIterator Int), 100),
     ({ terms := [{ id := 2, doc_offset := 0, doc_freq := 5 },
                  { id := 4, doc_offset := 8, doc_freq := 7 },
                  { id := 7, doc_offset := 16, doc_freq := 1 }] }, 200)]
    (by decide) 6 (by decide)

/-- C6. Stable tie-break: for every collection of non-decreasing inputs, each
    entry carrying its position in the collection as its handle, the loop over
    the `MergeIterator` ends, and of two emitted pairs with equal term ids that
    come from two different entries the one emitted first comes from the entry
    that is earlier in the collection. -/
theorem merge_stable_tie_break {id_t : Type} [LinearOrder id_t] [Inhabited id_t]
    (inputs : List (List (Term id_t)))
    (hs : ∀ l ∈ inputs, l.Pairwise (fun a b => Term.lt b a = false))
    (fuel : Nat) (hf : total_terms (positioned inputs) ≤ fuel) :
    ∃ out, MergeIterator.emitted fuel (positioned inputs) = some out
      ∧ out.Pairwise (fun x y => x.1.id = y.1.id → x.2 ≠ y.2 → x.2 < y.2) := by
  have hs2 : ∀ e ∈ positioned inputs, e.1.terms.Pairwise (fun a b => a.id ≤ b.id) := by
    intro e he
    simp only [positioned, List.mem_map] at he
    obtain ⟨p, hp, rfl⟩ := he
    have hmem : p.2 ∈ inputs := by
      have := List.mem_map_of_mem Prod.snd hp
      rwa [List.enum_map_snd] at this
    exact List.Pairwise.imp (fun h => by simpa [Term.lt] using h) (hs p.2 hmem)
  obtain ⟨out, hout, hpw, _⟩ := MergeIterator.emitted_spec (fun a b : Nat => a ≤ b)
    (fun _ => Nat.le_refl _) (fun _ _ _ h1 h2 => Nat.le_trans h1 h2) (positioned inputs) hs2
    (positioned_handles inputs) fuel hf
  refine ⟨out, hout, List.Pairwise.imp ?_ hpw⟩
  intro x y hxy heq hne
  rcases hxy with h | ⟨_, h⟩
  · exact absurd heq (ne_of_lt h)
  · exact lt_of_le_of_ne h hne

theorem merge_stable_tie_break_witness :
    ∃ out, MergeIterator.emitted 5
        (positioned [[({ id := 4, doc_offset := 10, doc_freq := 1 } : Term Int),
                      { id := 8, doc_offset := 12, doc_freq := 1 }],
                     [{ id := 2, doc_offset := 0, doc_freq := 5 },
                      { id := 4, doc_offset := 8, doc_freq := 7 },
                      { id := 8, doc_offset := 9, doc_freq := 2 }]]) = some out
      ∧ out.Pairwise (fun x y => x.1.id = y.1.id → x.2 ≠ y.2 → x.2 < y.2) :=
  merge_stable_tie_break
    [[({ id := 4, doc_offset := 10, doc_freq := 1 } : Term Int),
      { id := 8, doc_offset := 12, doc_freq := 1 }],
     [{ id := 2, doc_offset := 0, doc_freq := 5 },
      { id := 4, doc_offset := 8, doc_freq := 7 },
      { id := 8, doc_offset := 9, doc_freq := 2 }]]
    (by decide) 5 (by decide)

/-- C4. The merge of split 0 of shard A = [id 4] (handle 100) with split 0 of
    shard B = [ids 2, 4] (handle 200): the loop up to the default-constructed
    sentinel emits the two pairs (2, B), (4, A) of the three terms the inputs
    hold; the term 4 of B is loaded by the last `increment`, which also erases
    the last entry, so that the iterator already equals the sentinel. -/
theorem merge_emits_two_of_three :
    MergeIterator.emitted 3
        [(({ terms := [{ id := 4, doc_offset := 10, doc_freq := 1 }] } : SplitIterator Int), 100),
         ({ terms := [{ id := 2, doc_offset := 0, doc_freq := 5 },
                      { id := 4, doc_offset := 8, doc_freq := 7 }] }, 200)]
      = some [({ id := 2, doc_offset := 0, doc_freq := 5 }, 200),
              ({ id := 4, doc_offset := 10, doc_freq := 1 }, 100)]
    ∧ total_terms
        [(({ terms := [{ id := 4, doc_offset := 10, doc_freq := 1 }] } : SplitIterator Int), 100),
         ({ terms := [{ id := 2, doc_offset := 0, doc_freq := 5 },
                      { id := 4, doc_offset := 8, doc_freq := 7 }] }, 200)] = 3 := by
  decide

/-- C7. The merge of the single entry (s, h) with s = [id 7, id 9] and
    h = 100: the loop up to the default-constructed sentinel emits the pair
    (7, h) only, not the two terms of s; over the one-term input [id 7] it
    emits nothing. -/
theorem single_input_merge_emits_all_but_last :
    MergeIterator.emitted 2
        [(({ terms := [{ id := 7, doc_offset := 0, doc_freq := 1 },
                       { id := 9, doc_offset := 4, doc_freq := 2 }] } : SplitIterator Int), 100)]
      = some [({ id := 7, doc_offset := 0, doc_freq := 1 }, 100)]
    ∧ MergeIterator.emitted 1
        [(({ terms := [{ id := 7, doc_offset := 0, doc_freq := 1 }] } : SplitIterator Int), 100)]
      = some [] := by
  decide

/-! ## Theorems: executor -/

theorem isEmpty_empty_string : "".isEmpty = true := by decide

theorem ExecutorService.catch_block_empty (s : ExecutorService) (what : String)
    (h : s._failure_cause = "") :
    (s.catch_block what)._stop = true ∧ (s.catch_block what)._failure_cause = "" := by
  simp [ExecutorService.catch_block, h, isEmpty_empty_string]

/-- While the failure slot is empty, no sequence of task failures records a
    message. -/
theorem ExecutorService.failures_leave_slot_empty (whats : List String) :
    ∀ s : ExecutorService, s._failure_cause = "" →
      (whats.foldl ExecutorService.catch_block s)._failure_cause = "" := by
  induction whats with
  | nil => intro s h; exact h
  | cons what whats ih =>
    intro s h
    exact ih (s.catch_block what) (ExecutorService.catch_block_empty s what h).2

/-- C8. A pool of 4 workers, its failure slot empty, in which a task fails
    with the message "boom": the handler sets the stop flag and leaves the
    failure slot empty; after the failures "m1", "m2" in a row the slot is empty
    too; and on a slot that holds "first" a failure "second" overwrites it. -/
theorem failure_recorded_only_over_recorded :
    ((ExecutorService.construct 4).run_task (.error "boom"))._stop = true
      ∧ ((ExecutorService.construct 4).run_task (.error "boom"))._failure_cause = ""
      ∧ (["m1", "m2"].foldl ExecutorService.catch_block
          (ExecutorService.construct 4))._failure_cause = ""
      ∧ (ExecutorService.catch_block
          { _num_tasks_running := 1, _stop := true, _tasks := [], _failure_cause := "first" }
          "second")._failure_cause = "second" := by
  refine ⟨rfl, rfl, ?_, ?_⟩
  · exact ExecutorService.failures_leave_slot_empty _ _ rfl
  · have h : "first".isEmpty = false := by decide
    simp [ExecutorService.catch_block, h]

/-- C9. A pool of 4 workers with no recorded failure in which a task fails
    with the message "boom": whatever the predicate `Complete` is,
    `await_completion` afterwards does not raise; it returns normally once the
    predicate holds. -/
theorem await_completion_does_not_raise (complete : ExecutorService → Bool) :
    ExecutorService.await_completion complete
        ((ExecutorService.construct 4).run_task (.error "boom"))
      = (if complete ((ExecutorService.construct 4).run_task (.error "boom"))
          then some (.ok ()) else none)
    ∧ ExecutorService.await_completion complete
        ((ExecutorService.construct 4).run_task (.error "boom")) ≠ some (.error "boom") := by
  have h : ((ExecutorService.construct 4).run_task (.error "boom"))._failure_cause = "" := rfl
  have e : ExecutorService.await_completion complete
        ((ExecutorService.construct 4).run_task (.error "boom"))
      = (if complete ((ExecutorService.construct 4).run_task (.error "boom"))
          then some (.ok ()) else none) := by
    simp [ExecutorService.await_completion, h, isEmpty_empty_string]
  refine ⟨e, ?_⟩
  rw [e]
  split <;> simp

/-! ## Theorems: varint underrun -/

theorem VarIntView.read_varint_loop_all_high (w : Nat) (bytes : List Nat) :
    ∀ (a r s b : Nat), 0x80 ≤ b → (∀ c ∈ bytes, 0x80 ≤ c % 256) →
      VarIntView.read_varint_loop w bytes a r s b = .error .assert_not_empty := by
  induction bytes with
  | nil => intro a r s b hb _; exact VarIntView.read_varint_loop_underrun w a r s b hb
  | cons c rest ih =>
    intro a r s b hb h
    rw [VarIntView.read_varint_loop_cont w c rest a r s b hb]
    exact ih _ _ _ _ (h c (List.mem_cons_self _ _)) (fun d hd => h d (List.mem_cons_of_mem _ hd))

/-- C10. Varint underrun is an error: for every view whose remaining bytes
    are none, or all have the bit `0x80` set, so that the view ends before a
    terminator byte, `read_varint<int_t>(read())` fails, for every integer
    type, on the check `assert(!empty())` of `read`, and returns no integer. -/
theorem varint_underrun_fails (w : Nat) (v : VarIntView)
    (h : ∀ b ∈ v.bytes, 0x80 ≤ b % 256) :
    v.read_varint_read w = .error .assert_not_empty
      ∧ ∀ (x : Int) (v1 : VarIntView), v.read_varint_read w ≠ .ok (x, v1) := by
  have e : v.read_varint_read w = .error .assert_not_empty := by
    unfold VarIntView.read_varint_read VarIntView.read
    cases hb : v.bytes with
    | nil => rfl
    | cons b rest =>
      rw [hb] at h
      simp only [VarIntView.read_varint]
      exact VarIntView.read_varint_loop_all_high w rest _ 0 0 (b % 256)
        (h b (List.mem_cons_self _ _)) (fun d hd => h d (List.mem_cons_of_mem _ hd))
  refine ⟨e, ?_⟩
  intro x v1
  rw [e]
  simp

theorem varint_underrun_fails_witness :
    VarIntView.read_varint_read 64 { _begin := 4096, bytes := [0x80, 0xFF, 0x81] }
        = .error .assert_not_empty
      ∧ ∀ (x : Int) (v1 : VarIntView),
          VarIntView.read_varint_read 64 { _begin := 4096, bytes := [0x80, 0xFF, 0x81] }
            ≠ .ok (x, v1) :=
  varint_underrun_fails 64 { _begin := 4096, bytes := [0x80, 0xFF, 0x81] } (by decide)

/-! ## Theorems: the encoded format -/

theorem lor_80_of_lt (x : Int) (h0 : 0 ≤ x) (h1 : x < 0x80) :
    toByte (Int.lor x 0x80) = x.toNat + 0x80 := by
  obtain ⟨n, rfl⟩ := Int.eq_ofNat_of_zero_le h0
  have hn : n < 2 ^ 7 := by omega
  have e : Int.lor (n : Int) 0x80 = ((n ||| 0x80 : Nat) : Int) := rfl
  have h := or_shift n 1 7 hn
  have h2 : (1 : Nat) <<< 7 = 0x80 := by decide
  rw [h2] at h
  rw [e, toByte_natCast, h]
  omega

/-- A byte of the branch for negative values: the seven bits of the
    sign-extended value from bit `k` on, with the bit `0x80` set. -/
theorem varint_group_byte (v : Int) (k : Nat) :
    toByte (Int.lor (Int.land (Int.shiftRight v k) 0x7F) 0x80)
      = (v / ((2 ^ k : Nat) : Int) % 0x80).toNat + 0x80 := by
  have e : Int.shiftRight v k = v / ((2 ^ k : Nat) : Int) := Int.shiftRight_eq_div_pow v k
  rw [land_7F_eq_emod, e]
  exact lor_80_of_lt _ (Int.emod_nonneg _ (by norm_num)) (Int.emod_lt_of_pos _ (by norm_num))

/-- The bytes `varint_encode` emits for a negative value: five groups of seven
    bits of the sign-extended value, the bit `0x80` set on each of the five. -/
theorem varint_encode_value_neg (v : Int) (h : v < 0) :
    varint_encode_value v
      = [ (v % 0x80).toNat + 0x80, (v / 2 ^ 7 % 0x80).toNat + 0x80,
          (v / 2 ^ 14 % 0x80).toNat + 0x80, (v / 2 ^ 21 % 0x80).toNat + 0x80,
          (v / 2 ^ 28 % 0x80).toNat + 0x80 ] := by
  have h0 : toByte (Int.lor (Int.land v 0x7F) 0x80) = (v % 0x80).toNat + 0x80 := by
    rw [land_7F_eq_emod]
    exact lor_80_of_lt _ (Int.emod_nonneg _ (by norm_num)) (Int.emod_lt_of_pos _ (by norm_num))
  unfold varint_encode_value
  rw [if_pos h, h0, varint_group_byte v 7, varint_group_byte v 14, varint_group_byte v 21,
    varint_group_byte v 28]
  norm_num

/-- C11. The negative values -1 and -2^31: `varint_encode` emits five bytes
    that hold the seven-bit groups of the sign-extended value, and the bit
    `0x80` is set on all five, the fifth included (0xFF for -1, 0xF8 for
    -2^31), so that the five bytes are not a terminated varint. -/
theorem negative_encoding_sets_bit_on_fifth_byte :
    varint_encode [-1] [] = [0xFF, 0xFF, 0xFF, 0xFF, 0xFF]
      ∧ varint_encode [-2147483648] [] = [0x80, 0x80, 0x80, 0x80, 0xF8]
      ∧ is_varint (varint_encode [-1] []) = false := by
  have e1 : int_cast (-1) = -1 := by decide
  have e2 : int_cast (-2147483648) = -2147483648 := by decide
  have b1 : varint_encode [-1] [] = [0xFF, 0xFF, 0xFF, 0xFF, 0xFF] := by
    simp only [varint_encode, e1, List.nil_append]
    rw [varint_encode_value_neg _ (by decide)]
    decide
  have b2 : varint_encode [-2147483648] [] = [0x80, 0x80, 0x80, 0x80, 0xF8] := by
    simp only [varint_encode, e2, List.nil_append]
    rw [varint_encode_value_neg _ (by decide)]
    decide
  refine ⟨b1, b2, ?_⟩
  rw [b1]
  decide

/-- C12. Unsigned encoding format: for every `v` with `0 <= v < 2^31`,
    `varint_encode` emits the base-128 digits of `v`, least significant first,
    in `k` bytes, `k` the smallest number `>= 1` with `v < 2^(7k)`, the bit
    `0x80` set on every byte but the last. -/
theorem unsigned_encoding_format (v : Nat) (h : v < 2 ^ 31) :
    ∃ k, 1 ≤ k ∧ v < 2 ^ (7 * k) ∧ (∀ j, 1 ≤ j → v < 2 ^ (7 * j) → k ≤ j)
      ∧ varint_encode [(v : Int)] [] = base128_digits k v := by
  have hc : int_cast (v : Int) = (v : Int) := int_cast_of_range _ (by omega) (by omega)
  have henc : varint_encode [(v : Int)] [] = varint_encode_value (v : Int) := by
    simp [varint_encode, hc]
  have h0 : ¬ ((v : Int) < 0) := by omega
  have hmin : ∀ (k j : Nat), 2 ^ (7 * (k - 1)) ≤ v → v < 2 ^ (7 * j) → 1 ≤ k → k ≤ j := by
    intro k j h1 h2 _
    by_contra hlt
    have h3 : 2 ^ (7 * j) ≤ 2 ^ (7 * (k - 1)) := Nat.pow_le_pow_right (by decide) (by omega)
    omega
  rw [henc]
  unfold varint_encode_value
  simp only [h0, if_false, land_lor_natCast, land_lor_natCast_zero, shiftRight_natCast,
    toByte_natCast]
  by_cases h1 : (v : Int) < 2 ^ 7
  · rw [if_pos h1]
    refine ⟨1, le_refl _, by omega, fun j hj _ => hj, ?_⟩
    simp [base128_digits, List.range_succ]
    omega
  rw [if_neg h1]
  by_cases h2 : (v : Int) < 2 ^ 14
  · rw [if_pos h2]
    refine ⟨2, by decide, by omega, fun j hj hv => hmin 2 j (by simp; omega) hv (by decide), ?_⟩
    simp [base128_digits, List.range_succ]
    omega
  rw [if_neg h2]
  by_cases h3 : (v : Int) < 2 ^ 21
  · rw [if_pos h3]
    refine ⟨3, by decide, by omega, fun j hj hv => hmin 3 j (by simp; omega) hv (by decide), ?_⟩
    simp [base128_digits, List.range_succ]
    omega
  rw [if_neg h3]
  by_cases h4 : (v : Int) < 2 ^ 28
  · rw [if_pos h4]
    refine ⟨4, by decide, by omega, fun j hj hv => hmin 4 j (by simp; omega) hv (by decide), ?_⟩
    simp [base128_digits, List.range_succ]
    omega
  · rw [if_neg h4]
    refine ⟨5, by decide, by omega, fun j hj hv => hmin 5 j (by simp; omega) hv (by decide), ?_⟩
    simp [base128_digits, List.range_succ]
    omega

theorem unsigned_encoding_format_witness :
    ∃ k, 1 ≤ k ∧ 70000 < 2 ^ (7 * k) ∧ (∀ j, 1 ≤ j → 70000 < 2 ^ (7 * j) → k ≤ j)
      ∧ varint_encode [((70000 : Nat) : Int)] [] = base128_digits k 70000 :=
  unsigned_encoding_format 70000 (by decide)

/-! ## Theorems: `doc_ids_encode` -/

theorem doc_ids_deltas_eq (ds : List Nat) :
    ∀ (prev : Nat) (deltas : List Nat), prev < 2 ^ 32 → (∀ d ∈ ds, d < 2 ^ 32) →
      doc_ids_deltas (ds.map Int.ofNat) prev deltas
        = deltas ++ differences prev ds := by
  induction ds with
  | nil => intro prev deltas _ _; simp [doc_ids_deltas, differences]
  | cons d ds ih =>
    intro prev deltas hp hd
    have hd0 : d < 2 ^ 32 := hd d (List.mem_cons_self _ _)
    have e1 : toUInt32 (Int.ofNat d) = d := by
      unfold toUInt32; simp only [Int.ofNat_eq_coe]; omega
    have e2 : toUInt32 (Int.ofNat d - (prev : Int)) = (d + 2 ^ 32 - prev) % 2 ^ 32 := by
      unfold toUInt32; simp only [Int.ofNat_eq_coe]; omega
    simp only [List.map_cons, doc_ids_deltas, e1, e2]
    rw [ih d _ hd0 (fun x hx => hd x (List.mem_cons_of_mem _ hx))]
    simp [differences]

theorem doc_ids_encode_eq (ds : List Nat) (hd : ∀ d ∈ ds, d < 2 ^ 32) (out : List Nat) :
    doc_ids_encode (ds.map Int.ofNat) out
      = out ++ varint_encode ((differences 0 ds).map Int.ofNat) [] := by
  unfold doc_ids_encode
  rw [doc_ids_deltas_eq ds 0 [] (by decide) hd, varint_encode_append]
  simp

theorem running_sums_differences (ds : List Nat) :
    ∀ prev : Nat, (∀ d ∈ ds, prev ≤ d) → ds.Pairwise (fun a b => a ≤ b) →
      (∀ d ∈ ds, d < 2 ^ 32) →
      running_sums (Int.ofNat prev) ((differences prev ds).map Int.ofNat)
        = ds.map Int.ofNat := by
  induction ds with
  | nil => intro prev _ _ _; rfl
  | cons d ds ih =>
    intro prev hp hpw hd
    have hd0 : d < 2 ^ 32 := hd d (List.mem_cons_self _ _)
    have hp0 : prev ≤ d := hp d (List.mem_cons_self _ _)
    have hpw2 := List.pairwise_cons.mp hpw
    have e : Int.ofNat prev + Int.ofNat ((d + 2 ^ 32 - prev) % 2 ^ 32) = Int.ofNat d := by
      simp only [Int.ofNat_eq_coe]; omega
    simp only [differences, List.map_cons, running_sums, e]
    rw [ih d hpw2.1 hpw2.2 (fun x hx => hd x (List.mem_cons_of_mem _ hx))]

theorem differences_length (ds : List Nat) :
    ∀ prev : Nat, (differences prev ds).length = ds.length := by
  induction ds with
  | nil => intro prev; rfl
  | cons d ds ih => intro prev; simp [differences, ih]

/-- C13, the statement as given, at the one-element sequence [2^31]: the
    difference 2^31 is handed to `varint_encode` as the `int` -2^31, the five
    bytes emitted for it all carry the bit `0x80`, and decoding them fails, so
    that no running sum reproduces the sequence. -/
theorem doc_ids_large_difference_not_decoded :
    doc_ids_encode [2147483648] [] = [0x80, 0x80, 0x80, 0x80, 0xF8]
      ∧ VarIntView.decode_all 32 5 { _begin := 4096, bytes := doc_ids_encode [2147483648] [] }
          = some (.error .assert_not_empty) := by
  have e1 : doc_ids_deltas [2147483648] 0 [] = [2147483648] := by decide
  have e2 : int_cast (2147483648 : Int) = -2147483648 := by decide
  have b : doc_ids_encode [2147483648] [] = [0x80, 0x80, 0x80, 0x80, 0xF8] := by
    unfold doc_ids_encode
    rw [e1]
    simp only [List.map_cons, List.map_nil, varint_encode, List.nil_append]
    have e3 : Int.ofNat 2147483648 = 2147483648 := rfl
    rw [e3, e2, varint_encode_value_neg _ (by decide)]
    decide
  refine ⟨b, ?_⟩
  rw [b]
  rfl

/-- C13, amended. Delta sequence encoding: for every finite sequence of 32-bit
    unsigned doc ids, `doc_ids_encode` appends to the buffer exactly the bytes
    that `varint_encode` produces for the list of the differences
    `d_0 - 0, d_1 - d_0, ...` modulo 2^32; and for a non-decreasing sequence
    all of whose differences are below 2^31, decoding those bytes yields the
    differences, whose running sums reproduce the sequence. -/
theorem doc_ids_encode_differences (ds : List Nat) (hd : ∀ d ∈ ds, d < 2 ^ 32)
    (out : List Nat) :
    doc_ids_encode (ds.map Int.ofNat) out
        = out ++ varint_encode ((differences 0 ds).map Int.ofNat) []
      ∧ (ds.Pairwise (fun a b => a ≤ b) → (∀ x ∈ differences 0 ds, x < 2 ^ 31) →
          ∀ (w a fuel : Nat), 32 ≤ w → ds.length ≤ fuel →
            VarIntView.decode_all w fuel
                { _begin := a, bytes := doc_ids_encode (ds.map Int.ofNat) [] }
              = some (.ok ((differences 0 ds).map Int.ofNat,
                  { _begin := a + (doc_ids_encode (ds.map Int.ofNat) []).length,
                    bytes := [] }))
            ∧ running_sums 0 ((differences 0 ds).map Int.ofNat)
                = ds.map Int.ofNat) := by
  refine ⟨doc_ids_encode_eq ds hd out, ?_⟩
  intro hpw hsmall w a fuel hw hf
  have henc := doc_ids_encode_eq ds hd []
  rw [List.nil_append] at henc
  refine ⟨?_, ?_⟩
  · rw [henc]
    refine VarIntView.decode_all_encode w hw _ fuel a ?_
      (by rw [List.length_map, differences_length]; exact hf)
    intro x hx
    obtain ⟨n, hn, rfl⟩ := List.mem_map.mp hx
    have := hsmall n hn
    simp only [Int.ofNat_eq_coe]
    constructor <;> omega
  · exact running_sums_differences ds 0 (fun d _ => Nat.zero_le d) hpw hd

theorem doc_ids_encode_differences_witness :
    VarIntView.decode_all 32 4
        { _begin := 4096, bytes := doc_ids_encode [3, 3, 10, 300] [] }
      = some (.ok ([3, 0, 7, 290],
          { _begin := 4096 + (doc_ids_encode [3, 3, 10, 300] []).length, bytes := [] }))
      ∧ running_sums 0 [3, 0, 7, 290] = [3, 3, 10, 300] :=
  (doc_ids_encode_differences [3, 3, 10, 300] (by decide) []).2 (by decide) (by decide)
    32 4096 4 (by decide) (by decide)

/-! ## Theorems: order of the decoded ids -/

namespace MergeIterator

theorem drawn_from_filter {id_t H : Type} (entries : List (Entry id_t H)) :
    drawn_from entries (entries.filter (fun entry => !entry.1.at_end)) := by
  intro x hx
  have h := List.mem_filter.mp hx
  refine ⟨?_, x, h.1, rfl, List.suffix_refl _⟩
  intro hnil
  have h2 := h.2
  simp [SplitIterator.at_end, hnil] at h2

theorem filter_ne_nil_of_total {id_t H : Type} (entries : List (Entry id_t H))
    (hn : 0 < total_terms entries) :
    entries.filter (fun entry => !entry.1.at_end) ≠ [] := by
  intro h
  have := total_terms_filter entries
  rw [h] at this
  simp [total_terms] at this
  simp [total_terms] at hn
  omega

theorem total_terms_eq_zero_iff {id_t H : Type} (its : List (Entry id_t H))
    (hnn : ∀ e ∈ its, e.1.terms ≠ []) : total_terms its = 0 ↔ its = [] := by
  constructor
  · intro h
    cases its with
    | nil => rfl
    | cons e tl =>
      have h1 := hnn e (by simp)
      rw [total_terms_cons] at h
      have : 0 < e.1.terms.length := List.length_pos.mpr h1
      omega
  · intro h
    rw [h]
    rfl

section
variable {id_t H : Type} [LinearOrder id_t] [Inhabited id_t]

theorem increment_nil (m : MergeIterator id_t H) (h : m._its = []) : m.increment = m := by
  unfold increment
  rw [h]

theorem increments_nil (n : Nat) :
    ∀ m : MergeIterator id_t H, m._its = [] → m.increments n = m := by
  induction n with
  | zero => intro m _; rfl
  | succ n ih =>
    intro m h
    rw [increments, increment_nil m h]
    exact ih m h

/-- One `increment` of an iterator with entries loads a term of one of them,
    with the handle of that entry, and leaves tails of the entries. -/
theorem increment_origin (entries : List (Entry id_t H)) (m : MergeIterator id_t H)
    (hne : m._its ≠ []) (hd : drawn_from entries m._its) :
    drawn_from entries m.increment._its ∧ current_from entries m.increment._current := by
  obtain ⟨q1, e, q2, hsplit, _, _, hinc⟩ := increment_split m hne
  rw [hsplit] at hd
  obtain ⟨henn, e0, he0, hh, hsuf⟩ := hd e (by simp)
  have hq1 : ∀ x ∈ q1, x.1.terms ≠ [] ∧ ∃ e ∈ entries, x.2 = e.2
      ∧ List.IsSuffix x.1.terms e.1.terms := fun x hx => hd x (by simp [hx])
  have hq2 : ∀ x ∈ q2, x.1.terms ≠ [] ∧ ∃ e ∈ entries, x.2 = e.2
      ∧ List.IsSuffix x.1.terms e.1.terms := fun x hx => hd x (by simp [hx])
  cases hterms : e.1.terms with
  | nil => exact absurd hterms henn
  | cons t ts =>
    have hder : e.1.dereference = t := by simp [SplitIterator.dereference, hterms]
    have hts : e.1.increment.terms = ts := by simp [SplitIterator.increment, hterms]
    have hcur : current_from entries m.increment._current := by
      rw [hinc]
      refine ⟨e0, he0, hh, ?_⟩
      simp only [hder]
      exact hsuf.subset (by rw [hterms]; simp)
    refine ⟨?_, hcur⟩
    by_cases hend : e.1.increment.at_end = true
    · have hits : m.increment._its = q1 ++ q2 := by rw [hinc]; simp [hend]
      intro x hx
      rw [hits] at hx
      rcases List.mem_append.mp hx with h | h
      · exact hq1 x h
      · exact hq2 x h
    · have hits : m.increment._its = q1 ++ (e.1.increment, e.2) :: q2 := by
        rw [hinc]; simp [hend]
      have hnn : ts ≠ [] := by
        intro h
        apply hend
        simp [SplitIterator.at_end, hts, h]
      intro x hx
      rw [hits] at hx
      rcases List.mem_append.mp hx with h | h
      · exact hq1 x h
      · rcases List.mem_cons.mp h with h | h
        · rw [h]
          simp only [hts]
          refine ⟨hnn, e0, he0, hh, ?_⟩
          have h1 : List.IsSuffix ts (t :: ts) := List.suffix_cons t ts
          rw [← hterms] at h1
          exact h1.trans hsuf
        · exact hq2 x h

theorem increments_origin (entries : List (Entry id_t H)) (n : Nat) :
    ∀ m : MergeIterator id_t H, drawn_from entries m._its →
      current_from entries m._current →
      drawn_from entries (m.increments n)._its
        ∧ current_from entries (m.increments n)._current := by
  induction n with
  | zero => intro m hd hc; exact ⟨hd, hc⟩
  | succ n ih =>
    intro m hd hc
    rw [increments]
    by_cases hnil : m._its = []
    · rw [increment_nil m hnil]
      exact ih m hd hc
    · obtain ⟨hd2, hc2⟩ := increment_origin entries m hnil hd
      exact ih _ hd2 hc2

theorem collect_origin [Inhabited H] [DecidableEq H] (entries : List (Entry id_t H)) :
    ∀ (fuel : Nat) (m : MergeIterator id_t H) (out : List (Term id_t × H)),
      drawn_from entries m._its → (m._its ≠ [] → current_from entries m._current) →
      collect fuel m = some out → ∀ x ∈ out, current_from entries x := by
  intro fuel
  induction fuel with
  | zero =>
    intro m out _ _ hout x hx
    by_cases he : m.equal (sentinel id_t H) = true
    · simp [collect, he] at hout
      rw [hout] at hx
      simp at hx
    · simp [collect, he] at hout
  | succ fuel ih =>
    intro m out hd hc hout x hx
    by_cases he : m.equal (sentinel id_t H) = true
    · simp [collect, he] at hout
      rw [hout] at hx
      simp at hx
    · have hne : m._its ≠ [] := fun h => he ((equal_sentinel m).mpr h)
      obtain ⟨hd2, hc2⟩ := increment_origin entries m hne hd
      rw [collect] at hout
      simp only [he, Bool.false_eq_true, if_false] at hout
      cases hrec : collect fuel m.increment with
      | none => rw [hrec] at hout; simp at hout
      | some out2 =>
        rw [hrec] at hout
        simp only [Option.some.injEq] at hout
        rw [← hout] at hx
        rcases List.mem_cons.mp hx with h | h
        · rw [h]; exact hc hne
        · exact ih m.increment out2 hd2 (fun _ => hc2) hrec x h

/-- After `k` increments an iterator none of whose entries is at its end holds
    `k` terms fewer, as long as it holds any. -/
theorem increments_total (k : Nat) :
    ∀ m : MergeIterator id_t H, (∀ e ∈ m._its, e.1.terms ≠ []) →
      (∀ e ∈ (m.increments k)._its, e.1.terms ≠ [])
        ∧ total_terms (m.increments k)._its = total_terms m._its - k := by
  induction k with
  | zero => intro m h; exact ⟨h, rfl⟩
  | succ k ih =>
    intro m h
    rw [increments]
    by_cases hnil : m._its = []
    · rw [increment_nil m hnil]
      obtain ⟨h1, h2⟩ := ih m h
      refine ⟨h1, ?_⟩
      rw [h2, hnil]
      simp [total_terms]
    · obtain ⟨h3, h4⟩ := increment_total m hnil h
      obtain ⟨h1, h2⟩ := ih m.increment h3
      refine ⟨h1, ?_⟩
      rw [h2]
      omega

/-- The constructed iterator holds one term fewer than the inputs, and none
    of its entries is at its end. -/
theorem construct_total [Inhabited H] (entries : List (Entry id_t H))
    (hn : 0 < total_terms entries) :
    (∀ e ∈ (construct entries)._its, e.1.terms ≠ [])
      ∧ total_terms (construct entries)._its + 1 = total_terms entries := by
  have hnn : ∀ e ∈ entries.filter (fun entry => !entry.1.at_end), e.1.terms ≠ [] :=
    fun e he => ((drawn_from_filter entries) e he).1
  obtain ⟨h1, h2⟩ := increment_total
    { _its := entries.filter (fun entry => !entry.1.at_end), _current := default }
    (filter_ne_nil_of_total entries hn) hnn
  refine ⟨h1, ?_⟩
  have := total_terms_filter entries
  simp only at h2
  unfold construct
  omega

end

end MergeIterator

/-- C15. Shard handle pairing: for every collection of entries that hold a
    term, the pair `(t, h)` that the `MergeIterator` exposes as its current
    value, after construction and after any number of increments, is made of a
    term `t` of an input entry and of the handle `h` of that same entry; so is
    every pair the loop up to the sentinel emits. -/
theorem shard_handle_pairing {id_t H : Type} [LinearOrder id_t] [Inhabited id_t] [Inhabited H]
    [DecidableEq H] (entries : List (Entry id_t H)) (hn : 0 < total_terms entries) :
    (∀ n : Nat, ∃ e ∈ entries,
        ((MergeIterator.construct entries).increments n).dereference.2 = e.2
          ∧ ((MergeIterator.construct entries).increments n).dereference.1 ∈ e.1.terms)
      ∧ (∀ (fuel : Nat) (out : List (Term id_t × H)),
          MergeIterator.emitted fuel entries = some out →
          ∀ x ∈ out, ∃ e ∈ entries, x.2 = e.2 ∧ x.1 ∈ e.1.terms) := by
  obtain ⟨hd, hc⟩ := MergeIterator.increment_origin entries
    { _its := entries.filter (fun entry => !entry.1.at_end), _current := default }
    (MergeIterator.filter_ne_nil_of_total entries hn) (MergeIterator.drawn_from_filter entries)
  refine ⟨?_, ?_⟩
  · intro n
    exact (MergeIterator.increments_origin entries n (MergeIterator.construct entries) hd hc).2
  · intro fuel out hout x hx
    exact MergeIterator.collect_origin entries fuel (MergeIterator.construct entries) out hd
      (fun _ => hc) hout x hx

theorem shard_handle_pairing_witness :
    (∀ n : Nat, ∃ e ∈
        [(({ terms := [{ id := 4, doc_offset := 10, doc_freq := 1 }] } : SplitIterator Int), 100),
         ({ terms := [{ id := 2, doc_offset := 0, doc_freq := 5 },
                      { id := 4, doc_offset := 8, doc_freq := 7 }] }, 200)],
        ((MergeIterator.construct
          [(({ terms := [{ id := 4, doc_offset := 10, doc_freq := 1 }] } : SplitIterator Int), 100),
           ({ terms := [{ id := 2, doc_offset := 0, doc_freq := 5 },
                        { id := 4, doc_offset := 8, doc_freq := 7 }] }, 200)]).increments
            n).dereference.2 = e.2
          ∧ ((MergeIterator.construct
          [(({ terms := [{ id := 4, doc_offset := 10, doc_freq := 1 }] } : SplitIterator Int), 100),
           ({ terms := [{ id := 2, doc_offset := 0, doc_freq := 5 },
                        { id := 4, doc_offset := 8, doc_freq := 7 }] }, 200)]).increments
            n).dereference.1 ∈ e.1.terms)
      ∧ (∀ (fuel : Nat) (out : List (Term Int × Nat)),
          MergeIterator.emitted fuel
            [(({ terms := [{ id := 4, doc_offset := 10, doc_freq := 1 }] } : SplitIterator Int),
              100),
             ({ terms := [{ id := 2, doc_offset := 0, doc_freq := 5 },
                          { id := 4, doc_offset := 8, doc_freq := 7 }] }, 200)] = some out →
          ∀ x ∈ out, ∃ e ∈
            [(({ terms := [{ id := 4, doc_offset := 10, doc_freq := 1 }] } : SplitIterator Int),
              100),
             ({ terms := [{ id := 2, doc_offset := 0, doc_freq := 5 },
                          { id := 4, doc_offset := 8, doc_freq := 7 }] }, 200)],
            x.2 = e.2 ∧ x.1 ∈ e.1.terms) :=
  shard_handle_pairing
    [(({ terms := [{ id := 4, doc_offset := 10, doc_freq := 1 }] } : SplitIterator Int), 100),
     ({ terms := [{ id := 2, doc_offset := 0, doc_freq := 5 },
                  { id := 4, doc_offset := 8, doc_freq := 7 }] }, 200)] (by decide)

/-- C16. Early exhaustion of the merge iterator: for every collection of
    entries that hold `n >= 1` terms in total, the `MergeIterator` differs from
    the default-constructed one after construction and fewer than `n - 1`
    increments, and equals it after construction and `n - 1` increments, that
    is as soon as the last term is loaded; the loop that dereferences and
    increments up to the sentinel ends and dereferences exactly `n - 1` terms. -/
theorem early_exhaustion {id_t H : Type} [LinearOrder id_t] [Inhabited id_t] [Inhabited H]
    [DecidableEq H] (entries : List (Entry id_t H)) (hn : 1 ≤ total_terms entries) :
    (∀ k : Nat, k + 1 < total_terms entries →
        ((MergeIterator.construct entries).increments k).equal
          (MergeIterator.sentinel id_t H) = false)
      ∧ ((MergeIterator.construct entries).increments (total_terms entries - 1)).equal
          (MergeIterator.sentinel id_t H) = true
      ∧ (∀ fuel : Nat, total_terms entries ≤ fuel →
          ∃ out, MergeIterator.emitted fuel entries = some out
            ∧ out.length = total_terms entries - 1) := by
  obtain ⟨hnn, htot⟩ := MergeIterator.construct_total entries hn
  refine ⟨?_, ?_, fun fuel hf => MergeIterator.emitted_length entries fuel hf⟩
  · intro k hk
    obtain ⟨h1, h2⟩ := MergeIterator.increments_total k (MergeIterator.construct entries) hnn
    rw [← Bool.not_eq_true, MergeIterator.equal_sentinel]
    intro hnil
    have := (MergeIterator.total_terms_eq_zero_iff _ h1).mpr hnil
    omega
  · obtain ⟨h1, h2⟩ := MergeIterator.increments_total (total_terms entries - 1)
      (MergeIterator.construct entries) hnn
    rw [MergeIterator.equal_sentinel]
    exact (MergeIterator.total_terms_eq_zero_iff _ h1).mp (by omega)

theorem early_exhaustion_witness :
    (∀ k : Nat, k + 1 < total_terms (positioned
          [[({ id := 4, doc_offset := 10, doc_freq := 1 } : Term Int)],
           [{ id := 2, doc_offset := 0, doc_freq := 5 },
            { id := 4, doc_offset := 8, doc_freq := 7 }]]) →
        ((MergeIterator.construct (positioned
          [[({ id := 4, doc_offset := 10, doc_freq := 1 } : Term Int)],
           [{ id := 2, doc_offset := 0, doc_freq := 5 },
            { id := 4, doc_offset := 8, doc_freq := 7 }]])).increments k).equal
          (MergeIterator.sentinel Int Nat) = false)
      ∧ ((MergeIterator.construct (positioned
          [[({ id := 4, doc_offset := 10, doc_freq := 1 } : Term Int)],
           [{ id := 2, doc_offset := 0, doc_freq := 5 },
            { id := 4, doc_offset := 8, doc_freq := 7 }]])).increments
            (total_terms (positioned
              [[({ id := 4, doc_offset := 10, doc_freq := 1 } : Term Int)],
               [{ id := 2, doc_offset := 0, doc_freq := 5 },
                { id := 4, doc_offset := 8, doc_freq := 7 }]]) - 1)).equal
          (MergeIterator.sentinel Int Nat) = true
      ∧ (∀ fuel : Nat, total_terms (positioned
            [[({ id := 4, doc_offset := 10, doc_freq := 1 } : Term Int)],
             [{ id := 2, doc_offset := 0, doc_freq := 5 },
              { id := 4, doc_offset := 8, doc_freq := 7 }]]) ≤ fuel →
          ∃ out, MergeIterator.emitted fuel (positioned
            [[({ id := 4, doc_offset := 10, doc_freq := 1 } : Term Int)],
             [{ id := 2, doc_offset := 0, doc_freq := 5 },
              { id := 4, doc_offset := 8, doc_freq := 7 }]]) = some out
            ∧ out.length = total_terms (positioned
              [[({ id := 4, doc_offset := 10, doc_freq := 1 } : Term Int)],
               [{ id := 2, doc_offset := 0, doc_freq := 5 },
                { id := 4, doc_offset := 8, doc_freq := 7 }]]) - 1) :=
  early_exhaustion (positioned
    [[({ id := 4, doc_offset := 10, doc_freq := 1 } : Term Int)],
     [{ id := 2, doc_offset := 0, doc_freq := 5 },
      { id := 4, doc_offset := 8, doc_freq := 7 }]]) (by decide)

/-- C17. Exhaustion is absorbing: once a `MergeIterator` equals the
    default-constructed one, every further increment leaves it equal to that
    sentinel and leaves its current value unchanged. -/
theorem exhaustion_absorbing {id_t H : Type} [LinearOrder id_t] [Inhabited id_t] [Inhabited H]
    [DecidableEq H] (m : MergeIterator id_t H)
    (h : m.equal (MergeIterator.sentinel id_t H) = true) (k : Nat) :
    (m.increments k).equal (MergeIterator.sentinel id_t H) = true
      ∧ (m.increments k).dereference = m.dereference := by
  have hnil : m._its = [] := (MergeIterator.equal_sentinel m).mp h
  rw [MergeIterator.increments_nil k m hnil]
  exact ⟨h, rfl⟩

theorem exhaustion_absorbing_witness :
    (MergeIterator.increments 3
        ({ _its := [], _current := ({ id := 9, doc_offset := 20, doc_freq := 2 }, 100) } :
          MergeIterator Int Nat)).equal (MergeIterator.sentinel Int Nat) = true
      ∧ (MergeIterator.increments 3
          ({ _its := [], _current := ({ id := 9, doc_offset := 20, doc_freq := 2 }, 100) } :
            MergeIterator Int Nat)).dereference
        = ({ _its := [], _current := ({ id := 9, doc_offset := 20, doc_freq := 2 }, 100) } :
            MergeIterator Int Nat).dereference :=
  exhaustion_absorbing
    ({ _its := [], _current := ({ id := 9, doc_offset := 20, doc_freq := 2 }, 100) } :
      MergeIterator Int Nat)
    (by decide) 3

/-- C18. Merge over empty inputs: for every collection of entries, the empty
    one included, in which every split iterator equals its end sentinel, the
    constructed `MergeIterator` equals the default-constructed one, and the
    merge yields the empty sequence. -/
theorem merge_over_empty_inputs {id_t H : Type} [LinearOrder id_t] [Inhabited id_t]
    [Inhabited H] [DecidableEq H] (entries : List (Entry id_t H))
    (h : ∀ e ∈ entries, e.1.at_end = true) :
    (MergeIterator.construct entries).equal (MergeIterator.sentinel id_t H) = true
      ∧ ∀ fuel : Nat, MergeIterator.emitted fuel entries = some [] := by
  have hnil : entries.filter (fun entry => !entry.1.at_end) = [] := by
    rw [List.filter_eq_nil_iff]
    intro e he
    simp [h e he]
  have hc : MergeIterator.construct entries = { _its := [], _current := default } := by
    simp [MergeIterator.construct, hnil, MergeIterator.increment]
  have he : (MergeIterator.construct entries).equal (MergeIterator.sentinel id_t H) = true := by
    rw [MergeIterator.equal_sentinel, hc]
  refine ⟨he, ?_⟩
  intro fuel
  cases fuel <;> simp [MergeIterator.emitted, MergeIterator.collect, he]

theorem merge_over_empty_inputs_witness :
    (MergeIterator.construct
        [(({ terms := [] } : SplitIterator Int), 100), ({ terms := [] }, 200)]).equal
        (MergeIterator.sentinel Int Nat) = true
      ∧ ∀ fuel : Nat, MergeIterator.emitted fuel
          [(({ terms := [] } : SplitIterator Int), 100), ({ terms := [] }, 200)] = some [] :=
  merge_over_empty_inputs
    [(({ terms := [] } : SplitIterator Int), 100), ({ terms := [] }, 200)] (by decide)

/-! ## Theorems: the stop flag -/

theorem ExecutorService.step_keeps_stop (unblocked : ExecutorService → Bool)
    (s s1 : ExecutorService) (ev : ExecutorService.Event) (h : s._stop = true)
    (hs : ExecutorService.step unblocked s ev = some s1) : s1._stop = true := by
  cases ev with
  | enter_wait =>
    simp only [ExecutorService.step, Option.some.injEq] at hs
    rw [← hs]
    exact h
  | dequeue =>
    simp [ExecutorService.step, ExecutorService.dequeue, h] at hs
  | task_succeeds =>
    simp only [ExecutorService.step, ExecutorService.run_task, Option.some.injEq] at hs
    rw [← hs]
    exact h
  | task_fails what =>
    simp only [ExecutorService.step, ExecutorService.run_task, Option.some.injEq] at hs
    rw [← hs]
    rfl
  | destructor =>
    simp only [ExecutorService.step, Option.some.injEq] at hs
    rw [← hs]
    rfl

theorem ExecutorService.run_keeps_stop (unblocked : ExecutorService → Bool)
    (evs : List ExecutorService.Event) :
    ∀ s s1 : ExecutorService, s._stop = true →
      ExecutorService.run unblocked s evs = some s1 → s1._stop = true := by
  induction evs with
  | nil =>
    intro s s1 h hr
    simp only [ExecutorService.run, Option.some.injEq] at hr
    rw [← hr]
    exact h
  | cons ev evs ih =>
    intro s s1 h hr
    rw [ExecutorService.run] at hr
    cases hstep : ExecutorService.step unblocked s ev with
    | none => rw [hstep] at hr; simp at hr
    | some s2 =>
      rw [hstep] at hr
      exact ih s2 s1 (ExecutorService.step_keeps_stop unblocked s s2 ev h hstep) hr

/-- C19. Sticky stop: in the step relation of the executor (a worker enters
    the wait, a worker dequeues a task, a task succeeds, a task fails, the
    destructor), whatever the predicate `Unblocked` is, a stop flag that is set
    stays set after every step and after every run, and in a state where the
    stop flag is set no worker dequeues a task to run it. -/
theorem sticky_stop (unblocked : ExecutorService → Bool) (s : ExecutorService)
    (h : s._stop = true) :
    (∀ (ev : ExecutorService.Event) (s1 : ExecutorService),
        ExecutorService.step unblocked s ev = some s1 → s1._stop = true)
      ∧ (∀ (evs : List ExecutorService.Event) (s1 : ExecutorService),
          ExecutorService.run unblocked s evs = some s1 → s1._stop = true)
      ∧ s.dequeue unblocked = none
      ∧ ExecutorService.step unblocked s .dequeue = none := by
  refine ⟨fun ev s1 hs => ExecutorService.step_keeps_stop unblocked s s1 ev h hs,
    fun evs s1 hr => ExecutorService.run_keeps_stop unblocked evs s s1 h hr, ?_, ?_⟩
  · simp [ExecutorService.dequeue, h]
  · simp [ExecutorService.step, ExecutorService.dequeue, h]

theorem sticky_stop_witness :
    (∀ (ev : ExecutorService.Event) (s1 : ExecutorService),
        ExecutorService.step (fun s => s._stop || !s._tasks.isEmpty)
          ((ExecutorService.construct 4).run_task (.error "boom")) ev = some s1 →
        s1._stop = true)
      ∧ (∀ (evs : List ExecutorService.Event) (s1 : ExecutorService),
          ExecutorService.run (fun s => s._stop || !s._tasks.isEmpty)
            ((ExecutorService.construct 4).run_task (.error "boom")) evs = some s1 →
          s1._stop = true)
      ∧ ((ExecutorService.construct 4).run_task (.error "boom")).dequeue
          (fun s => s._stop || !s._tasks.isEmpty) = none
      ∧ ExecutorService.step (fun s => s._stop || !s._tasks.isEmpty)
          ((ExecutorService.construct 4).run_task (.error "boom")) .dequeue = none :=
  sticky_stop (fun s => s._stop || !s._tasks.isEmpty)
    ((ExecutorService.construct 4).run_task (.error "boom")) rfl

/-! ## Theorems: the erase of the textual decoder -/

end Imhotep
